import Mathlib

/-!
# Verification of termtosvg's core pipeline against its specification

This file gives a shallow embedding, in Lean 4, of the parts of the
termtosvg repository that the specification's claims are about:

* `termtosvg/term.py`: the time coalescer `_group_by_time`, the line event
  machinery `_feed` / `screen_events`, and `_redraw_buffer`;
* `termtosvg/anim.py`: `CharacterCell.from_pyte` and the definitions table
  of `_render_line`;
* `termtosvg/asciicast.py`: `AsciiCastV2Theme.__new__` and
  `AsciiCastV2Header.__new__`;
* `vectty/anim.py`: the SMIL animation chaining of
  `AsciiAnimation.render_animation`.

Python floats are modelled as rationals (`ℚ`), Python `int()` truncation as
truncating integer division, Python dicts as association lists that preserve
the source's insertion/update order.  Fallible code returns `Except`.
-/

namespace TermToSvg

/-! ## Python helpers -/

/-- Truncation of a rational toward zero, as Python's `int()` applied to a
float.  `Int.tdiv` is the division that rounds toward zero. -/
def pyInt (q : ℚ) : ℤ := q.num.tdiv q.den

/-- Truthiness of an optional number, as Python's `if x:` for a value that is
either `None` or a number: `None` and `0` are falsy. -/
def pyTruthy : Option ℚ → Bool
  | none => false
  | some q => q != 0

/-! ## asciicast v2 events (`termtosvg/asciicast.py`)

`AsciiCastV2Event` carries `time`, `event_type`, `event_data` and an optional
`duration`.  `_group_by_time` asserts that the `duration` of every input
record is `None`, so input events are embedded without that field; the
events it yields always carry a duration, giving `OutEvent`. -/

structure InEvent where
  time : ℚ
  event_type : String
  event_data : String
deriving DecidableEq, Repr

structure OutEvent where
  time : ℚ
  event_data : String
  duration : ℚ
deriving DecidableEq, Repr

/-! ## The time coalescer (`term._group_by_time`) -/

/-- The capping step of `_group_by_time`: under `if max_rec_duration:`, a
gap larger than the cap is reduced to the cap and the excess is added to
`dropped_time`.  First component: the (possibly capped) gap; second
component: the updated `dropped_time`. -/
def capStep (maxSec : Option ℚ) (tbe dropped : ℚ) : ℚ × ℚ :=
  if pyTruthy maxSec then
    let M := maxSec.getD 0
    if M < tbe then (M, dropped + (tbe - M)) else (tbe, dropped)
  else (tbe, dropped)

/-- Loop body of `_group_by_time`.  `minMs` is `min_rec_duration` in
milliseconds, `maxSec` is `max_rec_duration` after the one-time division by
1000 performed at function entry, `lastMs` is `last_rec_duration` in
milliseconds.  The accumulator mirrors the local variables `current_string`,
`current_time` and `dropped_time`. -/
def groupByTimeLoop (minMs : ℚ) (maxSec : Option ℚ) (lastMs : ℚ) :
    List InEvent → String → ℚ → ℚ → List OutEvent
  | [], curStr, curTime, _ =>
    [⟨curTime, curStr, lastMs / 1000⟩]
  | e :: rest, curStr, curTime, dropped =>
    if e.event_type ≠ "o" then
      groupByTimeLoop minMs maxSec lastMs rest curStr curTime dropped
    else
      let tbe := e.time - (curTime + dropped)
      if tbe * 1000 ≥ minMs then
        ⟨curTime, curStr, (capStep maxSec tbe dropped).1⟩ ::
          groupByTimeLoop minMs maxSec lastMs rest e.event_data
            (curTime + (capStep maxSec tbe dropped).1)
            (capStep maxSec tbe dropped).2
      else
        groupByTimeLoop minMs maxSec lastMs rest (curStr ++ e.event_data)
          curTime dropped

/-- The one-time `max_rec_duration /= 1000` conversion performed at the entry
of `_group_by_time` (only when `max_rec_duration` is truthy). -/
def maxSecOf (maxMs : Option ℚ) : Option ℚ :=
  if pyTruthy maxMs then maxMs.map (· / 1000) else maxMs

/-- `term._group_by_time(event_records, min_rec_duration, max_rec_duration,
last_rec_duration)`. -/
def groupByTime (events : List InEvent) (minMs : ℚ) (maxMs : Option ℚ)
    (lastMs : ℚ) : List OutEvent :=
  groupByTimeLoop minMs (maxSecOf maxMs) lastMs events "" 0 0

/-- The `max_frame_dur` defaulting of `term.screen_events`: when the caller
passed a falsy value and the header's `idle_time_limit` is truthy, the cap
becomes `int(idle_time_limit * 1000)`. -/
def defaultMaxFrameDur (maxFrameDur : Option ℚ) (idleTimeLimit : Option ℚ) :
    Option ℚ :=
  if ¬ pyTruthy maxFrameDur ∧ pyTruthy idleTimeLimit then
    some ((pyInt ((idleTimeLimit.getD 0) * 1000) : ℤ) : ℚ)
  else maxFrameDur

/-- The effective cap of a `max_rec_duration` argument: `none` when the
argument is falsy (no capping happens), otherwise its value. -/
def capVal : Option ℚ → Option ℚ
  | none => none
  | some v => if v = 0 then none else some v

/-! ### Coalescer lemmas -/

theorem capStep_of_capVal_none (maxSec : Option ℚ) (tbe dropped : ℚ)
    (h : capVal maxSec = none) : capStep maxSec tbe dropped = (tbe, dropped) := by
  cases maxSec with
  | none => rfl
  | some v =>
    by_cases hv : v = 0
    · simp [capStep, pyTruthy, hv]
    · simp [capVal, hv] at h

theorem capVal_eq_some (maxSec : Option ℚ) (M : ℚ)
    (h : capVal maxSec = some M) : maxSec = some M ∧ M ≠ 0 := by
  cases maxSec with
  | none => simp [capVal] at h
  | some v =>
    by_cases hv : v = 0
    · simp [capVal, hv] at h
    · simp only [capVal, hv, if_false, Option.some_inj] at h
      subst h; exact ⟨rfl, hv⟩

theorem capStep_of_capVal_some (maxSec : Option ℚ) (tbe dropped M : ℚ)
    (h : capVal maxSec = some M) :
    capStep maxSec tbe dropped =
      if M < tbe then (M, dropped + (tbe - M)) else (tbe, dropped) := by
  obtain ⟨hm, hne⟩ := capVal_eq_some maxSec M h
  subst hm
  simp [capStep, pyTruthy, hne]

/-- Frames starting from clock `t` are chained: each frame starts at the
clock, and advances it by its duration. -/
def ChainedFrom : ℚ → List OutEvent → Prop
  | _, [] => True
  | t, e :: rest => e.time = t ∧ ChainedFrom (e.time + e.duration) rest

theorem groupByTimeLoop_chainedFrom (minMs : ℚ) (maxSec : Option ℚ)
    (lastMs : ℚ) (events : List InEvent) (curStr : String) (curTime : ℚ)
    (dropped : ℚ) :
    ChainedFrom curTime
      (groupByTimeLoop minMs maxSec lastMs events curStr curTime dropped) := by
  induction events generalizing curStr curTime dropped with
  | nil => exact ⟨rfl, trivial⟩
  | cons e rest ih =>
    by_cases ho : e.event_type = "o"
    · simp only [groupByTimeLoop, ho, ne_eq, not_true_eq_false, if_false]
      by_cases hge : (e.time - (curTime + dropped)) * 1000 ≥ minMs
      · simp only [hge, if_true]
        exact ⟨rfl, ih _ _ _⟩
      · simp only [hge, if_false]
        exact ih _ _ _
    · simp only [groupByTimeLoop, ho, ne_eq, not_false_eq_true, if_true]
      exact ih _ _ _

theorem chainedFrom_getElem (l : List OutEvent) (t : ℚ)
    (h : ChainedFrom t l) :
    ∀ i (ei ej : OutEvent), l[i]? = some ei → l[i + 1]? = some ej →
      ei.time + ei.duration = ej.time := by
  induction l generalizing t with
  | nil => intro i ei ej hi; simp at hi
  | cons e rest ih =>
    intro i ei ej hi hj
    match i with
    | 0 =>
      simp only [List.getElem?_cons_zero, Option.some_inj] at hi
      simp only [List.getElem?_cons_succ] at hj
      subst hi
      obtain ⟨-, hchain⟩ := h
      match rest, hj, hchain with
      | e' :: rest', hj, hchain =>
        simp only [List.getElem?_cons_zero, Option.some_inj] at hj
        subst hj
        exact hchain.1.symm
    | i + 1 =>
      simp only [List.getElem?_cons_succ] at hi hj
      exact ih _ h.2 i ei ej hi hj

theorem groupByTimeLoop_ne_nil (minMs : ℚ) (maxSec : Option ℚ) (lastMs : ℚ)
    (events : List InEvent) (curStr : String) (curTime : ℚ) (dropped : ℚ) :
    groupByTimeLoop minMs maxSec lastMs events curStr curTime dropped ≠ [] := by
  induction events generalizing curStr curTime dropped with
  | nil => simp [groupByTimeLoop]
  | cons e rest ih =>
    by_cases ho : e.event_type = "o"
    · by_cases hge : (e.time - (curTime + dropped)) * 1000 ≥ minMs
      · simp [groupByTimeLoop, ho, hge]
      · simp only [groupByTimeLoop, ho, ne_eq, not_true_eq_false, if_false,
          hge, ge_iff_le, if_false]
        exact ih _ _ _
    · simp only [groupByTimeLoop, ho, ne_eq, not_false_eq_true, if_true]
      exact ih _ _ _

/-- The final frame always carries `last_rec_duration / 1000`. -/
theorem groupByTimeLoop_getLast (minMs : ℚ) (maxSec : Option ℚ) (lastMs : ℚ)
    (events : List InEvent) (curStr : String) (curTime : ℚ) (dropped : ℚ)
    (e : OutEvent)
    (h : (groupByTimeLoop minMs maxSec lastMs events curStr curTime
        dropped).getLast? = some e) :
    e.duration = lastMs / 1000 := by
  induction events generalizing curStr curTime dropped with
  | nil =>
    simp only [groupByTimeLoop, List.getLast?_singleton, Option.some_inj] at h
    subst h; rfl
  | cons ev rest ih =>
    by_cases ho : ev.event_type = "o"
    · by_cases hge : (ev.time - (curTime + dropped)) * 1000 ≥ minMs
      · simp only [groupByTimeLoop, ho, ne_eq, not_true_eq_false, if_false,
          hge, if_true] at h
        obtain ⟨x, xs, hxx⟩ :=
          List.exists_cons_of_ne_nil (groupByTimeLoop_ne_nil minMs maxSec
            lastMs rest ev.event_data
            (curTime + (capStep maxSec (ev.time - (curTime + dropped)) dropped).1)
            (capStep maxSec (ev.time - (curTime + dropped)) dropped).2)
        rw [hxx, List.getLast?_cons_cons, ← hxx] at h
        exact ih _ _ _ h
      · simp only [groupByTimeLoop, ho, ne_eq, not_true_eq_false, if_false,
          hge, ge_iff_le, if_false] at h
        exact ih _ _ _ h
    · simp only [groupByTimeLoop, ho, ne_eq, not_false_eq_true, if_true] at h
      exact ih _ _ _ h

/-- Every non-final frame was yielded inside the loop: its duration (in ms,
i.e. multiplied by 1000) is at least `min minMs M` (at least `minMs` when no
cap is active) and at most the cap `M` when one is active. -/
theorem groupByTimeLoop_dropLast (minMs : ℚ) (maxSec : Option ℚ) (lastMs : ℚ)
    (events : List InEvent) (curStr : String) (curTime : ℚ) (dropped : ℚ)
    (e : OutEvent)
    (h : e ∈ (groupByTimeLoop minMs maxSec lastMs events curStr curTime
        dropped).dropLast) :
    (capVal maxSec = none → minMs ≤ e.duration * 1000) ∧
    (∀ M, capVal maxSec = some M →
      min minMs (M * 1000) ≤ e.duration * 1000 ∧ e.duration ≤ M) := by
  induction events generalizing curStr curTime dropped with
  | nil => simp [groupByTimeLoop] at h
  | cons ev rest ih =>
    by_cases ho : ev.event_type = "o"
    · by_cases hge : (ev.time - (curTime + dropped)) * 1000 ≥ minMs
      · simp only [groupByTimeLoop, ho, ne_eq, not_true_eq_false, if_false,
          hge, if_true] at h
        obtain ⟨x, xs, hxx⟩ :=
          List.exists_cons_of_ne_nil (groupByTimeLoop_ne_nil minMs maxSec
            lastMs rest ev.event_data
            (curTime + (capStep maxSec (ev.time - (curTime + dropped)) dropped).1)
            (capStep maxSec (ev.time - (curTime + dropped)) dropped).2)
        rw [hxx, List.dropLast_cons₂, ← hxx] at h
        rcases List.mem_cons.mp h with he | hmem
        · subst he
          constructor
          · intro hnone
            rw [capStep_of_capVal_none maxSec _ dropped hnone]
            exact hge
          · intro M hM
            rw [capStep_of_capVal_some maxSec _ dropped M hM]
            by_cases hlt : M < ev.time - (curTime + dropped)
            · simp only [hlt, if_true]
              exact ⟨min_le_right _ _, le_refl M⟩
            · simp only [hlt, if_false]
              push_neg at hlt
              exact ⟨le_trans (min_le_left _ _) hge, hlt⟩
        · exact ih _ _ _ hmem
      · simp only [groupByTimeLoop, ho, ne_eq, not_true_eq_false, if_false,
          hge, ge_iff_le, if_false] at h
        exact ih _ _ _ h
    · simp only [groupByTimeLoop, ho, ne_eq, not_false_eq_true, if_true] at h
      exact ih _ _ _ h

theorem capVal_maxSecOf_none (M : Option ℚ) (h : capVal M = none) :
    capVal (maxSecOf M) = none := by
  cases M with
  | none => rfl
  | some v =>
    by_cases hv : v = 0
    · subst hv
      simp [maxSecOf, pyTruthy, capVal]
    · simp [capVal, hv] at h

theorem capVal_maxSecOf_some (M : Option ℚ) (v : ℚ) (h : capVal M = some v) :
    capVal (maxSecOf M) = some (v / 1000) := by
  obtain ⟨hm, hne⟩ := capVal_eq_some M v h
  subst hm
  have : v / 1000 ≠ 0 := by
    intro h0
    exact hne (by field_simp at h0; exact h0)
  simp [maxSecOf, pyTruthy, capVal, hne, this]

theorem nonneg_of_mul_thousand (q : ℚ) (h : 0 ≤ q * 1000) : 0 ≤ q := by
  nlinarith

/-- Durations of non-final frames are nonnegative as soon as the minimum
duration and the cap are. -/
theorem groupByTimeLoop_dropLast_nonneg (minMs : ℚ) (maxSec : Option ℚ)
    (lastMs : ℚ) (events : List InEvent) (curStr : String) (curTime : ℚ)
    (dropped : ℚ) (hm : 0 ≤ minMs)
    (hM : ∀ v, capVal maxSec = some v → 0 ≤ v) :
    ∀ e ∈ (groupByTimeLoop minMs maxSec lastMs events curStr curTime
        dropped).dropLast, 0 ≤ e.duration := by
  intro e he
  have h := groupByTimeLoop_dropLast minMs maxSec lastMs events curStr curTime
    dropped e he
  cases hcv : capVal maxSec with
  | none =>
    exact nonneg_of_mul_thousand _ (le_trans hm (h.1 hcv))
  | some v =>
    have hv := hM v hcv
    have := (h.2 v hcv).1
    exact nonneg_of_mul_thousand _ (le_trans (le_min hm (by nlinarith)) this)

theorem chainedFrom_lowerBound : ∀ (l : List OutEvent) (t : ℚ),
    ChainedFrom t l → (∀ e ∈ l.dropLast, 0 ≤ e.duration) →
    ∀ (j : ℕ) (ej : OutEvent), l[j]? = some ej → t ≤ ej.time := by
  intro l
  induction l with
  | nil => intro t _ _ j ej hj; simp at hj
  | cons e rest ih =>
    intro t h hd j ej hj
    match j with
    | 0 =>
      simp only [List.getElem?_cons_zero, Option.some_inj] at hj
      subst hj
      exact le_of_eq h.1.symm
    | j + 1 =>
      simp only [List.getElem?_cons_succ] at hj
      have hrest_ne : rest ≠ [] := by
        intro hnil; rw [hnil] at hj; simp at hj
      obtain ⟨x, xs, rfl⟩ := List.exists_cons_of_ne_nil hrest_ne
      have hdur : 0 ≤ e.duration := hd e (by
        rw [List.dropLast_cons₂]; exact List.mem_cons_self _ _)
      have hd' : ∀ e' ∈ (x :: xs).dropLast, 0 ≤ e'.duration := fun e' he' =>
        hd e' (by rw [List.dropLast_cons₂]; exact List.mem_cons_of_mem _ he')
      have hle := ih _ h.2 hd' j ej hj
      have ht : e.time = t := h.1
      linarith

theorem chainedFrom_mono : ∀ (l : List OutEvent) (t : ℚ),
    ChainedFrom t l → (∀ e ∈ l.dropLast, 0 ≤ e.duration) →
    ∀ (i j : ℕ) (ei ej : OutEvent), i ≤ j → l[i]? = some ei →
      l[j]? = some ej → ei.time ≤ ej.time := by
  intro l
  induction l with
  | nil => intro t _ _ i j ei ej _ hi; simp at hi
  | cons e rest ih =>
    intro t h hd i j ei ej hij hi hj
    match i with
    | 0 =>
      simp only [List.getElem?_cons_zero, Option.some_inj] at hi
      subst hi
      have := chainedFrom_lowerBound (e :: rest) t h hd j ej hj
      have ht : e.time = t := h.1
      linarith
    | i + 1 =>
      match j with
      | 0 => omega
      | j + 1 =>
        simp only [List.getElem?_cons_succ] at hi hj
        have hrest_ne : rest ≠ [] := by
          intro hnil; rw [hnil] at hi; simp at hi
        obtain ⟨x, xs, rfl⟩ := List.exists_cons_of_ne_nil hrest_ne
        have hd' : ∀ e' ∈ (x :: xs).dropLast, 0 ≤ e'.duration := fun e' he' =>
          hd e' (by rw [List.dropLast_cons₂]; exact List.mem_cons_of_mem _ he')
        exact ih _ h.2 hd' i j ei ej (by omega) hi hj

/-! ### Claim C1 -/

/-- **C1**, as stated, is false: with `min_frame_ms = 5000`, no cap, and
`last_frame_ms = 1000`, a single output event at t=0 produces exactly one
frame, whose duration is 1000 ms, below `min_frame_ms`.  (The frame in
question is the final frame, whose duration is always `last_frame_ms`,
regardless of `min_frame_ms` and `max_frame_ms`.) -/
theorem claim_C1_cex :
    ¬ (∀ e ∈ groupByTime [⟨0, "o", "a"⟩] 5000 none 1000,
        (5000 : ℚ) ≤ e.duration * 1000) := by
  intro hall
  have h1 : groupByTime [⟨0, "o", "a"⟩] 5000 none 1000 =
      [⟨0, "a", 1⟩] := by
    norm_num [groupByTime, maxSecOf, groupByTimeLoop, capStep, pyTruthy]
  have := hall ⟨0, "a", 1⟩ (by rw [h1]; exact List.mem_singleton_self _)
  norm_num at this

/-- **C1** (amended).  For every frame emitted by the time coalescer with
parameters `(m, M, L)`: every *non-final* frame has `duration_ms ≥ min m M`
(hence `≥ m` whenever no cap is active), and `duration_ms ≤ M` when the cap
`M` is active; the *final* frame always has `duration_ms = L`, regardless of
`m` and `M`.  The output is never empty. -/
theorem claim_C1 (events : List InEvent) (m l : ℚ) (M : Option ℚ) :
    (∀ e ∈ (groupByTime events m M l).dropLast,
      (capVal M = none → m ≤ e.duration * 1000) ∧
      (∀ v, capVal M = some v →
        min m v ≤ e.duration * 1000 ∧ e.duration * 1000 ≤ v)) ∧
    (∀ e, (groupByTime events m M l).getLast? = some e →
      e.duration * 1000 = l) ∧
    groupByTime events m M l ≠ [] := by
  refine ⟨?_, ?_, groupByTimeLoop_ne_nil _ _ _ _ _ _ _⟩
  · intro e he
    have h := groupByTimeLoop_dropLast m (maxSecOf M) l events "" 0 0 e he
    constructor
    · intro hnone
      exact h.1 (capVal_maxSecOf_none M hnone)
    · intro v hv
      have h2 := h.2 (v / 1000) (capVal_maxSecOf_some M v hv)
      have hv1000 : v / 1000 * 1000 = v := by field_simp
      constructor
      · calc min m v = min m (v / 1000 * 1000) := by rw [hv1000]
          _ ≤ e.duration * 1000 := h2.1
      · have hmul := mul_le_mul_of_nonneg_right h2.2
          (le_of_lt (by norm_num : (0 : ℚ) < 1000))
        rw [hv1000] at hmul
        exact hmul
  · intro e he
    have := groupByTimeLoop_getLast m (maxSecOf M) l events "" 0 0 e he
    rw [this]
    field_simp

/-- Witness for `claim_C1` at a concrete input. -/
theorem claim_C1_witness :
    ((⟨0, "a", 5⟩ : OutEvent) ∈
      (groupByTime [⟨0, "o", "a"⟩, ⟨5, "o", "b"⟩] 1 none 1000).dropLast) ∧
    (1 : ℚ) ≤ (5 : ℚ) * 1000 := by
  have hmem : (⟨0, "a", 5⟩ : OutEvent) ∈
      (groupByTime [⟨0, "o", "a"⟩, ⟨5, "o", "b"⟩] 1 none 1000).dropLast := by
    norm_num [groupByTime, maxSecOf, groupByTimeLoop, capStep, pyTruthy]
  exact ⟨hmem,
    ((claim_C1 [⟨0, "o", "a"⟩, ⟨5, "o", "b"⟩] 1 1000 none).1 _ hmem).1 rfl⟩

/-! ### Claim C2 -/

/-- **C2**.  When an inter-event gap exceeds the cap, the coalescer caps the
emitted duration at `max_frame_ms` and deducts the excess from the running
clock.  Concretely, with `idle_time_limit = 1.0` defaulted into
`max_frame_ms = 1000` and output events at t=0 and t=60, the frame spanning
the gap lasts exactly 1000 ms and the following frame starts at 1 s instead
of 60 s — 59000 ms earlier.  In general every non-final frame's duration is
at most the active cap, and frame times are monotone (each frame's time is
its predecessor's time plus its predecessor's duration, durations being
nonnegative for nonnegative parameters). -/
theorem claim_C2 :
    (defaultMaxFrameDur none (some 1) = some 1000) ∧
    (groupByTime [⟨0, "o", "a"⟩, ⟨60, "o", "b"⟩] 1 (some 1000) 1000 =
      [⟨0, "a", 1⟩, ⟨1, "b", 1⟩]) ∧
    (groupByTime [⟨0, "o", "a"⟩, ⟨60, "o", "b"⟩] 1 none 1000 =
      [⟨0, "a", 60⟩, ⟨60, "b", 1⟩]) ∧
    ((60 - 1 : ℚ) * 1000 = 59000) ∧
    (∀ (events : List InEvent) (m l v : ℚ) (M : Option ℚ),
      capVal M = some v →
      ∀ e ∈ (groupByTime events m M l).dropLast, e.duration * 1000 ≤ v) ∧
    (∀ (events : List InEvent) (m l : ℚ) (M : Option ℚ), 0 ≤ m →
      (∀ v, capVal M = some v → 0 ≤ v) →
      ∀ (i j : ℕ) (ei ej : OutEvent), i ≤ j →
        (groupByTime events m M l)[i]? = some ei →
        (groupByTime events m M l)[j]? = some ej → ei.time ≤ ej.time) := by
  refine ⟨?_, ?_, ?_, by norm_num, ?_, ?_⟩
  · norm_num [defaultMaxFrameDur, pyTruthy, pyInt]
  · norm_num [groupByTime, maxSecOf, groupByTimeLoop, capStep, pyTruthy]
  · norm_num [groupByTime, maxSecOf, groupByTimeLoop, capStep, pyTruthy]
  · intro events m l v M hv e he
    have h := groupByTimeLoop_dropLast m (maxSecOf M) l events "" 0 0 e he
    have h2 := h.2 (v / 1000) (capVal_maxSecOf_some M v hv)
    have hv1000 : v / 1000 * 1000 = v := by field_simp
    have hmul := mul_le_mul_of_nonneg_right h2.2
      (le_of_lt (by norm_num : (0 : ℚ) < 1000))
    rw [hv1000] at hmul
    exact hmul
  · intro events m l M hm hM i j ei ej hij hi hj
    have hMsec : ∀ v, capVal (maxSecOf M) = some v → 0 ≤ v := by
      intro v hv
      cases hcv : capVal M with
      | none => rw [capVal_maxSecOf_none M hcv] at hv; simp at hv
      | some w =>
        rw [capVal_maxSecOf_some M w hcv] at hv
        obtain rfl : w / 1000 = v := by simpa using hv
        exact div_nonneg (hM w hcv) (by norm_num)
    exact chainedFrom_mono _ 0 (groupByTimeLoop_chainedFrom _ _ _ _ _ _ _)
      (groupByTimeLoop_dropLast_nonneg m (maxSecOf M) l events "" 0 0 hm hMsec)
      i j ei ej hij hi hj

/-- Witness for `claim_C2` at a concrete input (the monotonicity clause,
applied to the capped 0s/60s recording). -/
theorem claim_C2_witness :
    ((0 : ℚ) ≤ 1) ∧
    ((groupByTime [⟨0, "o", "a"⟩, ⟨60, "o", "b"⟩] 1 (some 1000) 1000)[0]? =
      some ⟨0, "a", 1⟩) ∧
    ((groupByTime [⟨0, "o", "a"⟩, ⟨60, "o", "b"⟩] 1 (some 1000) 1000)[1]? =
      some ⟨1, "b", 1⟩) ∧
    (0 : ℚ) ≤ 1 := by
  have h0 : (groupByTime [⟨0, "o", "a"⟩, ⟨60, "o", "b"⟩] 1 (some 1000)
      1000)[0]? = some ⟨0, "a", 1⟩ := by
    norm_num [groupByTime, maxSecOf, groupByTimeLoop, capStep, pyTruthy]
  have h1 : (groupByTime [⟨0, "o", "a"⟩, ⟨60, "o", "b"⟩] 1 (some 1000)
      1000)[1]? = some ⟨1, "b", 1⟩ := by
    norm_num [groupByTime, maxSecOf, groupByTimeLoop, capStep, pyTruthy]
  refine ⟨by norm_num, h0, h1, ?_⟩
  exact claim_C2.2.2.2.2.2 [⟨0, "o", "a"⟩, ⟨60, "o", "b"⟩] 1 1000 (some 1000)
    (by norm_num)
    (by intro v hv; simp [capVal] at hv; subst hv; norm_num)
    0 1 ⟨0, "a", 1⟩ ⟨1, "b", 1⟩ (by omega) h0 h1

/-! ### Claim C3 -/

/-- **C3**.  For every pair of consecutive frames emitted by the time
coalescer, the first frame's time plus its duration equals the second
frame's time: frame times partition the timeline with no gap and no
overlap. -/
theorem claim_C3 (events : List InEvent) (m l : ℚ) (M : Option ℚ)
    (i : ℕ) (ei ej : OutEvent)
    (hi : (groupByTime events m M l)[i]? = some ei)
    (hj : (groupByTime events m M l)[i + 1]? = some ej) :
    ei.time + ei.duration = ej.time :=
  chainedFrom_getElem _ 0
    (groupByTimeLoop_chainedFrom m (maxSecOf M) l events "" 0 0) i ei ej hi hj

/-- Witness for `claim_C3` at a concrete input. -/
theorem claim_C3_witness :
    ((groupByTime [⟨0, "o", "a"⟩, ⟨5, "o", "b"⟩] 1 none 1000)[0]? =
      some ⟨0, "a", 5⟩) ∧
    ((groupByTime [⟨0, "o", "a"⟩, ⟨5, "o", "b"⟩] 1 none 1000)[1]? =
      some ⟨5, "b", 1⟩) ∧
    (0 : ℚ) + 5 = 5 := by
  have h0 : (groupByTime [⟨0, "o", "a"⟩, ⟨5, "o", "b"⟩] 1 none 1000)[0]? =
      some ⟨0, "a", 5⟩ := by
    norm_num [groupByTime, maxSecOf, groupByTimeLoop, capStep, pyTruthy]
  have h1 : (groupByTime [⟨0, "o", "a"⟩, ⟨5, "o", "b"⟩] 1 none 1000)[1]? =
      some ⟨5, "b", 1⟩ := by
    norm_num [groupByTime, maxSecOf, groupByTimeLoop, capStep, pyTruthy]
  exact ⟨h0, h1, claim_C3 [⟨0, "o", "a"⟩, ⟨5, "o", "b"⟩] 1 1000 none 0 _ _ h0 h1⟩

/-! ## Errors (`asciicast.AsciiCastError` and Python runtime errors)

The specification's *MalformedRecord* is `AsciiCastError` in the source.
Failed `assert` statements raise `AssertionError`, and `next()` on an
exhausted iterator raises `StopIteration`; neither is an `AsciiCastError`. -/

inductive PyErr where
  | asciiCast (msg : String)
  | assertionFailed
  | stopIteration
deriving DecidableEq, Repr

/-! ## Python `int(s, 16)` and `AsciiCastV2Theme.is_color`

`is_color` accepts a 7-character string starting with `#` whose remainder is
accepted by Python's `int(·, 16)`.  Beyond plain hexadecimal digits, Python
accepts surrounding (ASCII) whitespace, a leading sign, an optional `0x`/`0X`
prefix, and single underscores between digits. -/

def isPyHexDigit (c : Char) : Bool :=
  ('0' ≤ c && c ≤ '9') || ('a' ≤ c && c ≤ 'f') || ('A' ≤ c && c ≤ 'F')

def isPySpace (c : Char) : Bool :=
  c == ' ' || c == '\t' || c == '\n' || c == '\r' || c == '\x0b' || c == '\x0c'

/-- Hexadecimal digits after the first one; a single `_` may separate two
digits but may not trail or repeat. -/
def hexTail : List Char → Bool
  | [] => true
  | '_' :: c :: cs => isPyHexDigit c && hexTail cs
  | c :: cs => isPyHexDigit c && hexTail cs

/-- A nonempty digit run starting with a hexadecimal digit. -/
def hexBody : List Char → Bool
  | [] => false
  | c :: cs => isPyHexDigit c && hexTail cs

/-- After `0x`, an optional single underscore may precede the digits. -/
def hexAfterRadix : List Char → Bool
  | '_' :: rest => hexBody rest
  | rest => hexBody rest

/-- An optionally `0x`/`0X`-prefixed hexadecimal number. -/
def hexNumber (l : List Char) : Bool :=
  match l with
  | '0' :: 'x' :: rest => hexAfterRadix rest
  | '0' :: 'X' :: rest => hexAfterRadix rest
  | _ => hexBody l

/-- Whether Python's `int(s, 16)` succeeds on `s` (ASCII inputs). -/
def pyIntBase16Ok (s : String) : Bool :=
  let l := s.toList.dropWhile isPySpace
  let l := (l.reverse.dropWhile isPySpace).reverse
  match l with
  | '+' :: rest => hexNumber rest
  | '-' :: rest => hexNumber rest
  | rest => hexNumber rest

/-- `AsciiCastV2Theme.is_color`: a string of length 7 starting with `#`
whose remaining six characters `int(·, 16)` accepts. -/
def is_color (color : String) : Bool :=
  color.length == 7 && color.toList.headD ' ' == '#' &&
    pyIntBase16Ok (color.drop 1)

/-- The strict reading of the spec's `'#rrggbb'` format: `#` followed by six
hexadecimal digits.  This definition follows the spec's words, for comparison
with the source's `is_color`. -/
def specIsRrggbb (s : String) : Bool :=
  s.length == 7 && s.toList.headD ' ' == '#' &&
    (s.toList.tail).all isPyHexDigit

/-- Python's `str.split(sep)` for a one-character separator, on the exploded
character list: consecutive separators yield empty fields, and the empty
string yields a single empty field. -/
def pySplitAux (sep : Char) : List Char → List Char → List (List Char)
  | [], acc => [acc.reverse]
  | c :: cs, acc =>
    if c = sep then acc.reverse :: pySplitAux sep cs []
    else pySplitAux sep cs (c :: acc)

/-- Python's `s.split(sep)` for a one-character separator. -/
def pySplit (s : String) (sep : Char) : List String :=
  (pySplitAux sep s.toList []).map (fun cs => ⟨cs⟩)

instance {ε α : Type} [DecidableEq ε] [DecidableEq α] :
    DecidableEq (Except ε α) := fun a b =>
  match a, b with
  | .ok x, .ok y =>
    if h : x = y then isTrue (by rw [h])
    else isFalse (by intro hc; injection hc; exact h ‹_›)
  | .error x, .error y =>
    if h : x = y then isTrue (by rw [h])
    else isFalse (by intro hc; injection hc; exact h ‹_›)
  | .ok _, .error _ => isFalse (by intro hc; injection hc)
  | .error _, .ok _ => isFalse (by intro hc; injection hc)

/-! ## `AsciiCastV2Theme` and `AsciiCastV2Header` (`termtosvg/asciicast.py`) -/

structure AsciiCastV2Theme where
  fg : String
  bg : String
  palette : String
deriving DecidableEq, Repr

/-- `AsciiCastV2Theme.__new__`. -/
def themeNew (fg bg palette : String) : Except PyErr AsciiCastV2Theme :=
  if is_color fg then
    if is_color bg then
      let colors := pySplit palette ':'
      if colors.length ≥ 16 && (colors.take 16).all is_color then
        .ok ⟨fg, bg, palette⟩
      else if colors.length ≥ 8 && (colors.take 8).all is_color then
        .ok ⟨fg, bg, String.intercalate ":" (colors.take 8)⟩
      else
        .error (.asciiCast "Invalid palette: the first 8 or 16 colors must be valid")
    else .error (.asciiCast ("Invalid background color: " ++ bg))
  else .error (.asciiCast ("Invalid foreground color: " ++ fg))

structure AsciiCastV2Header where
  version : ℤ
  width : ℤ
  height : ℤ
  theme : Option AsciiCastV2Theme
  idle_time_limit : Option ℚ
deriving DecidableEq, Repr

/-- `AsciiCastV2Header.__new__`.  The per-field `isinstance` checks always
pass in this typed embedding; the version check is the remaining failure. -/
def headerNew (version width height : ℤ) (theme : Option AsciiCastV2Theme)
    (idle_time_limit : Option ℚ) : Except PyErr AsciiCastV2Header :=
  if version ≠ 2 then
    .error (.asciiCast "Only asciicast v2 format is supported")
  else .ok ⟨version, width, height, theme, idle_time_limit⟩

/-! ## Reading and coalescing a record stream (`term.screen_events`, header
and event handling) -/

inductive CastRecord where
  | header (h : AsciiCastV2Header)
  | event (e : InEvent)
deriving DecidableEq, Repr

/-- The records after the header must all be events: `_group_by_time`
asserts `isinstance(event_record, AsciiCastV2Event)`. -/
def recordEvents : List CastRecord → Except PyErr (List InEvent)
  | [] => .ok []
  | .event e :: rest => (recordEvents rest).map (e :: ·)
  | .header _ :: _ => .error .assertionFailed

/-- `screen_events`' treatment of the record stream up to coalescing:
`next(records)` on an empty stream raises `StopIteration`; a first record
that is not a header fails the `assert isinstance(header, AsciiCastV2Header)`;
otherwise the caps are defaulted from the header's `idle_time_limit` and the
events are fed to `_group_by_time`. -/
def readAndCoalesce (records : List CastRecord) (minFrameDur : ℚ)
    (maxFrameDur : Option ℚ) (lastFrameDur : ℚ) :
    Except PyErr (List OutEvent) :=
  match records with
  | [] => .error .stopIteration
  | .header h :: rest =>
    match recordEvents rest with
    | .error e => .error e
    | .ok events =>
      .ok (groupByTime events minFrameDur
        (defaultMaxFrameDur maxFrameDur h.idle_time_limit) lastFrameDur)
  | .event _ :: _ => .error .assertionFailed

/-! ### Claim C9 -/

/-- **C9**, as stated, is false: event times that are *not* monotonic do not
make reading and coalescing fail.  With a valid v2 header and output events
at t=5 then t=3, the pipeline succeeds: the negative gap falls below
`min_frame_dur`, so the second event is silently merged into the pending
chunk. -/
theorem claim_C9_cex :
    readAndCoalesce
      [.header ⟨2, 80, 24, none, none⟩,
       .event ⟨5, "o", "a"⟩, .event ⟨3, "o", "b"⟩] 1 none 1000 =
    .ok [⟨0, "", 5⟩, ⟨5, "ab", 1⟩] := by
  norm_num [readAndCoalesce, recordEvents, defaultMaxFrameDur, pyTruthy,
    groupByTime, maxSecOf, groupByTimeLoop, capStep, Except.map]
  rfl

/-- **C9** (amended).  Constructing a header with a version other than 2
fails with an `AsciiCastError`; a missing header fails with an
`AssertionError` (or `StopIteration` on an empty stream), which is not an
`AsciiCastError`; and non-monotonic event times are *not* an error: the
coalescer silently merges events whose (possibly negative) gap falls below
the minimum frame duration. -/
theorem claim_C9 :
    (∀ (v w h : ℤ) (th : Option AsciiCastV2Theme) (idle : Option ℚ),
      v ≠ 2 → headerNew v w h th idle =
        .error (.asciiCast "Only asciicast v2 format is supported")) ∧
    (∀ (e : InEvent) (rest : List CastRecord) (m l : ℚ) (M : Option ℚ),
      readAndCoalesce (.event e :: rest) m M l = .error .assertionFailed) ∧
    (∀ (m l : ℚ) (M : Option ℚ),
      readAndCoalesce [] m M l = .error .stopIteration) ∧
    (readAndCoalesce
      [.header ⟨2, 80, 24, none, none⟩,
       .event ⟨5, "o", "a"⟩, .event ⟨3, "o", "b"⟩] 1 none 1000 =
      .ok [⟨0, "", 5⟩, ⟨5, "ab", 1⟩]) := by
  refine ⟨?_, ?_, ?_, ?_⟩
  · intro v w h th idle hv
    simp [headerNew, hv]
  · intro e rest m l M
    rfl
  · intro m l M
    rfl
  · norm_num [readAndCoalesce, recordEvents, defaultMaxFrameDur, pyTruthy,
      groupByTime, maxSecOf, groupByTimeLoop, capStep, Except.map]
    rfl

/-- Witness for `claim_C9` at a concrete input. -/
theorem claim_C9_witness :
    (3 : ℤ) ≠ 2 ∧
    headerNew 3 80 24 none none =
      .error (.asciiCast "Only asciicast v2 format is supported") :=
  ⟨by decide, claim_C9.1 3 80 24 none none (by decide)⟩

/-! ### Claim C10 -/

/-- **C10**, as stated, is false: `"#+aaaaa"` is a 7-character string that is
*not* of the `'#rrggbb'` form (its second character is a sign, not a hex
digit), yet constructing a theme with it as foreground succeeds, because
Python's `int(·, 16)` — which `is_color` relies on — accepts a leading
sign. -/
theorem claim_C10_cex :
    themeNew "#+aaaaa" "#000000"
      "#000000:#000001:#000002:#000003:#000004:#000005:#000006:#000007" =
      .ok ⟨"#+aaaaa", "#000000",
        "#000000:#000001:#000002:#000003:#000004:#000005:#000006:#000007"⟩ ∧
    specIsRrggbb "#+aaaaa" = false := by
  constructor
  · decide
  · decide

/-- **C10** (amended).  Constructing a color theme succeeds iff `fg` and
`bg` are 7-character strings starting with `#` whose remainder Python's
`int(·, 16)` accepts (hex digits, possibly with surrounding whitespace, a
sign, a `0x` prefix, or underscores between digits — `is_color`), and the
colon-separated palette has either at least 16 leading valid colors (palette
stored as given) or at least 8 leading valid colors (palette silently
truncated to exactly the first 8 entries, so palettes of 9 to 15 valid
entries lose every entry beyond the eighth).  All other inputs raise an
`AsciiCastError`. -/
theorem claim_C10 (fg bg palette : String) :
    ((themeNew fg bg palette).isOk = true ↔
      (is_color fg = true ∧ is_color bg = true ∧
        (((pySplit palette ':').length ≥ 16 ∧
            ((pySplit palette ':').take 16).all is_color = true) ∨
          ((pySplit palette ':').length ≥ 8 ∧
            ((pySplit palette ':').take 8).all is_color = true)))) ∧
    (is_color fg = true → is_color bg = true →
      (pySplit palette ':').length ≥ 16 →
      ((pySplit palette ':').take 16).all is_color = true →
      themeNew fg bg palette = .ok ⟨fg, bg, palette⟩) ∧
    (is_color fg = true → is_color bg = true →
      ¬ ((pySplit palette ':').length ≥ 16 ∧
        ((pySplit palette ':').take 16).all is_color = true) →
      (pySplit palette ':').length ≥ 8 →
      ((pySplit palette ':').take 8).all is_color = true →
      themeNew fg bg palette =
        .ok ⟨fg, bg, String.intercalate ":" ((pySplit palette ':').take 8)⟩) ∧
    ((themeNew fg bg palette).isOk = false →
      ∃ msg, themeNew fg bg palette = .error (.asciiCast msg)) := by
  refine ⟨?_, ?_, ?_, ?_⟩
  · simp only [themeNew]
    split_ifs with hfg hbg h16 h8
    · simp only [Bool.and_eq_true, decide_eq_true_eq] at h16
      exact iff_of_true rfl ⟨hfg, hbg, Or.inl h16⟩
    · simp only [Bool.and_eq_true, decide_eq_true_eq] at h8
      exact iff_of_true rfl ⟨hfg, hbg, Or.inr h8⟩
    · refine iff_of_false (by simp [Except.isOk, Except.toBool]) ?_
      rintro ⟨-, -, h | h⟩
      · exact h16 (by simp [Bool.and_eq_true, decide_eq_true_eq, h.1, h.2])
      · exact h8 (by simp [Bool.and_eq_true, decide_eq_true_eq, h.1, h.2])
    · refine iff_of_false (by simp [Except.isOk, Except.toBool]) ?_
      rintro ⟨-, hbg', -⟩
      exact hbg hbg'
    · refine iff_of_false (by simp [Except.isOk, Except.toBool]) ?_
      rintro ⟨hfg', -, -⟩
      exact hfg hfg'
  · intro h1 h2 h3 h4
    have hc : (decide ((pySplit palette ':').length ≥ 16) &&
        ((pySplit palette ':').take 16).all is_color) = true := by
      simp [h3, h4]
    simp [themeNew, h1, h2, hc]
  · intro h1 h2 hn16 h8a h8b
    have hc16 : (decide ((pySplit palette ':').length ≥ 16) &&
        ((pySplit palette ':').take 16).all is_color) = false := by
      rcases Bool.eq_false_or_eq_true (decide ((pySplit palette ':').length ≥ 16) &&
          ((pySplit palette ':').take 16).all is_color) with h | h
      · exact absurd (by simpa [Bool.and_eq_true, decide_eq_true_eq] using h) hn16
      · exact h
    have hc8 : (decide ((pySplit palette ':').length ≥ 8) &&
        ((pySplit palette ':').take 8).all is_color) = true := by
      simp [h8a, h8b]
    simp [themeNew, h1, h2, hc16, hc8]
  · intro hnotok
    simp only [themeNew] at hnotok ⊢
    split_ifs at hnotok ⊢ with h1 h2 h3 h4 <;>
      first
        | exact ⟨_, rfl⟩
        | simp [Except.isOk, Except.toBool] at hnotok

/-- Witness for `claim_C10` at a concrete input: a palette of 9 valid
entries is accepted and truncated to its first 8 entries. -/
theorem claim_C10_witness :
    is_color "#aaaaaa" = true ∧ is_color "#000000" = true ∧
    ¬ ((pySplit "#000000:#000001:#000002:#000003:#000004:#000005:#000006:#000007:#000008" ':').length ≥ 16 ∧
      ((pySplit "#000000:#000001:#000002:#000003:#000004:#000005:#000006:#000007:#000008" ':').take 16).all is_color = true) ∧
    (pySplit "#000000:#000001:#000002:#000003:#000004:#000005:#000006:#000007:#000008" ':').length ≥ 8 ∧
    ((pySplit "#000000:#000001:#000002:#000003:#000004:#000005:#000006:#000007:#000008" ':').take 8).all is_color = true ∧
    themeNew "#aaaaaa" "#000000"
      "#000000:#000001:#000002:#000003:#000004:#000005:#000006:#000007:#000008" =
      .ok ⟨"#aaaaaa", "#000000",
        "#000000:#000001:#000002:#000003:#000004:#000005:#000006:#000007"⟩ :=
  ⟨by decide, by decide, by decide, by decide, by decide,
    (claim_C10 "#aaaaaa" "#000000"
      "#000000:#000001:#000002:#000003:#000004:#000005:#000006:#000007:#000008").2.2.1
      (by decide) (by decide) (by decide) (by decide) (by decide)⟩

/-! ## `CharacterCell.from_pyte` (`termtosvg/anim.py`)

`anim.py` replaces the first 16 entries of pyte's color table by names, so a
pyte character's `fg`/`bg` is `"default"`, a (possibly `bright`-prefixed)
color name, a hexadecimal string, or anything else (an error). -/

def _COLORS : List String :=
  ["black", "red", "green", "brown", "blue", "magenta", "cyan", "white"]

def _BRIGHTCOLORS : List String := _COLORS.map (fun c => "bright" ++ c)

def NAMED_COLORS : List String := _COLORS ++ _BRIGHTCOLORS

/-- The fields of a pyte character used by `CharacterCell.from_pyte`. -/
structure PyteChar where
  data : String
  fg : String
  bg : String
  bold : Bool
  italics : Bool
  underscore : Bool
  strikethrough : Bool
  reverse : Bool
deriving DecidableEq, Repr

structure CharacterCell where
  text : String
  color : String
  background_color : String
  bold : Bool
  italics : Bool
  underscore : Bool
  strikethrough : Bool
deriving DecidableEq, Repr

/-- The text color resolution of `CharacterCell.from_pyte`: `default` maps to
`foreground`; a named color (brightened when bold, unless already bright)
maps to its palette index; a 6-character string accepted by `int(·, 16)`
maps to `#`-prefixed hex; anything else raises `ValueError`. -/
def resolveTextColor (fg : String) (bold : Bool) : Except String String :=
  if fg = "default" then .ok "foreground"
  else
    let named_color :=
      if bold && !("bright".toList.isPrefixOf fg.toList) then "bright" ++ fg
      else fg
    if named_color ∈ NAMED_COLORS then
      .ok ("color" ++ toString (NAMED_COLORS.indexOf named_color))
    else if fg.length = 6 then
      if pyIntBase16Ok fg then .ok ("#" ++ fg)
      else .error ("invalid literal for int() with base 16: " ++ fg)
    else .error ("Invalid foreground color: " ++ fg)

/-- The background color resolution of `CharacterCell.from_pyte`: as for the
text color, but with *no* bold brightening. -/
def resolveBgColor (bg : String) : Except String String :=
  if bg = "default" then .ok "background"
  else if bg ∈ NAMED_COLORS then
    .ok ("color" ++ toString (NAMED_COLORS.indexOf bg))
  else if bg.length = 6 then
    if pyIntBase16Ok bg then .ok ("#" ++ bg)
    else .error ("invalid literal for int() with base 16: " ++ bg)
  else .error "Invalid background color"

/-- `CharacterCell.from_pyte`: resolve the text color, then the background
color, then swap the two when `reverse` is set. -/
def fromPyte (c : PyteChar) : Except String CharacterCell :=
  match resolveTextColor c.fg c.bold with
  | .error e => .error e
  | .ok tc =>
    match resolveBgColor c.bg with
    | .error e => .error e
    | .ok bgc =>
      let p := if c.reverse then (bgc, tc) else (tc, bgc)
      .ok ⟨c.data, p.1, p.2, c.bold, c.italics, c.underscore, c.strikethrough⟩

/-! ### Claim C5 -/

/-- **C5**, as stated, is false for background colors: the bold-brightening
applies only to the *foreground*.  A cell with `bg = "red"` (a named color
that is not bright) and `bold` set resolves its background to `color1`
(k = 1), not to any bright index k in 8..15 as the claim requires. -/
theorem claim_C5_cex :
    fromPyte ⟨"a", "default", "red", true, false, false, false, false⟩ =
      .ok ⟨"a", "foreground", "color1", true, false, false, false⟩ ∧
    ∀ k, k < 16 → 8 ≤ k → "color1" ≠ "color" ++ toString k := by
  constructor
  · decide
  · decide

/-- **C5** (amended).  Converting a terminal character to a `CharacterCell`:
a named *foreground* palette color maps to indexed color k with k in 0..7
normally and k in 8..15 when bold is set (bright names map to 8..15 always);
a named *background* palette color maps to its base index with no bold
brightening (0..7 for normal names, 8..15 for bright names); a 6-character
color string accepted by `int(·, 16)` maps to the literal `#RRGGBB` value,
and any other non-default color raises an invalid-color error; when
`reverse` is set, the resolved text color and background color are swapped
after this resolution. -/
theorem claim_C5 :
    (∀ i (h : i < 8) (b : Bool),
      resolveTextColor (_COLORS.get ⟨i, h⟩) true =
        .ok ("color" ++ toString (8 + i)) ∧
      resolveTextColor (_COLORS.get ⟨i, h⟩) false =
        .ok ("color" ++ toString i) ∧
      resolveTextColor (_BRIGHTCOLORS.get ⟨i, h⟩) b =
        .ok ("color" ++ toString (8 + i))) ∧
    (∀ i (h : i < 8),
      resolveBgColor (_COLORS.get ⟨i, h⟩) = .ok ("color" ++ toString i) ∧
      resolveBgColor (_BRIGHTCOLORS.get ⟨i, h⟩) =
        .ok ("color" ++ toString (8 + i))) ∧
    (∀ (s : String) (b : Bool), s.length = 6 → pyIntBase16Ok s = true →
      resolveTextColor s b = .ok ("#" ++ s) ∧
      resolveBgColor s = .ok ("#" ++ s)) ∧
    (∀ (s : String) (b : Bool), s ≠ "default" →
      (if b && !("bright".toList.isPrefixOf s.toList) then "bright" ++ s
        else s) ∉ NAMED_COLORS →
      ¬ (s.length = 6 ∧ pyIntBase16Ok s = true) →
      ∃ msg, resolveTextColor s b = .error msg) ∧
    (∀ s : String, s ≠ "default" → s ∉ NAMED_COLORS →
      ¬ (s.length = 6 ∧ pyIntBase16Ok s = true) →
      ∃ msg, resolveBgColor s = .error msg) ∧
    (∀ c : PyteChar, c.reverse = true →
      fromPyte c = (fromPyte { c with reverse := false }).map
        (fun cell => { cell with
          color := cell.background_color,
          background_color := cell.color })) := by
  refine ⟨by decide, by decide, ?_, ?_, ?_, ?_⟩
  · intro s b hlen hhex
    have hnd : s ≠ "default" := by
      intro h
      subst h
      exact absurd hlen (by decide)
    have hlen12 : ("bright" ++ s).length = 12 := by
      rw [String.length_append, hlen]
      decide
    have hnotmem : ∀ n ∈ NAMED_COLORS, n.length ≠ 6 ∧ n.length ≠ 12 := by
      decide
    constructor
    · simp only [resolveTextColor, if_neg hnd]
      have hnm : (if b && !("bright".toList.isPrefixOf s.toList) then
          "bright" ++ s else s) ∉ NAMED_COLORS := by
        by_cases hb : (b && !("bright".toList.isPrefixOf s.toList)) = true
        · rw [if_pos hb]
          intro hmem
          exact (hnotmem _ hmem).2 hlen12
        · rw [if_neg hb]
          intro hmem
          exact (hnotmem _ hmem).1 hlen
      rw [if_neg hnm, if_pos hlen, if_pos hhex]
    · simp only [resolveBgColor, if_neg hnd]
      have hnm : s ∉ NAMED_COLORS := by
        intro hmem
        exact (hnotmem _ hmem).1 hlen
      rw [if_neg hnm, if_pos hlen, if_pos hhex]
  · intro s b hnd hnm hno
    simp only [resolveTextColor, if_neg hnd, if_neg hnm]
    by_cases hl : s.length = 6
    · have hx : ¬ pyIntBase16Ok s = true := fun hx => hno ⟨hl, hx⟩
      rw [if_pos hl, if_neg hx]
      exact ⟨_, rfl⟩
    · rw [if_neg hl]
      exact ⟨_, rfl⟩
  · intro s hnd hnm hno
    simp only [resolveBgColor, if_neg hnd, if_neg hnm]
    by_cases hl : s.length = 6
    · have hx : ¬ pyIntBase16Ok s = true := fun hx => hno ⟨hl, hx⟩
      rw [if_pos hl, if_neg hx]
      exact ⟨_, rfl⟩
    · rw [if_neg hl]
      exact ⟨_, rfl⟩
  · intro c hrev
    simp only [fromPyte, hrev]
    cases htc : resolveTextColor c.fg c.bold with
    | error e => simp [Except.map]
    | ok tc =>
      cases hbgc : resolveBgColor c.bg with
      | error e => simp [Except.map]
      | ok bgc => simp [Except.map]

/-- Witness for `claim_C5` at a concrete input (the hexadecimal clause at
`s = "00aaff"`). -/
theorem claim_C5_witness :
    ("00aaff" : String).length = 6 ∧ pyIntBase16Ok "00aaff" = true ∧
    (resolveTextColor "00aaff" true = .ok ("#" ++ "00aaff") ∧
      resolveBgColor "00aaff" = .ok ("#" ++ "00aaff")) :=
  ⟨by decide, by decide, claim_C5.2.2.1 "00aaff" true (by decide) (by decide)⟩

/-! ## `term._redraw_buffer` -/

/-- A pyte cursor: position, visibility, and the `attrs` character whose
`fg`/`bg` are used for the synthetic cursor cell. -/
structure PyCursor where
  x : ℕ
  y : ℕ
  hidden : Bool
  attrs : PyteChar
deriving DecidableEq, Repr

/-- The monkey-patched `Cursor.__eq__` of `term.py`: compares `x`, `y` and
`hidden` only; comparison against `None` is `False`. -/
def cursorEq (c : PyCursor) (other : Option PyCursor) : Bool :=
  match other with
  | none => false
  | some o => c.x == o.x && c.y == o.y && c.hidden == o.hidden

/-- The pyte screen state read by `_redraw_buffer`: the (sparse) cell
buffer, the set of dirty rows, and the cursor. -/
structure PyScreen where
  buffer : List (ℕ × List (ℕ × PyteChar))
  dirty : List ℕ
  cursor : PyCursor
deriving DecidableEq, Repr

/-- `screen.buffer[row]`: pyte's buffer is a `defaultdict`, so a missing row
reads as an empty line. -/
def bufferRow (buf : List (ℕ × List (ℕ × PyteChar))) (row : ℕ) :
    List (ℕ × PyteChar) :=
  (buf.lookup row).getD []

def insertUnique (l : List ℕ) (x : ℕ) : List ℕ :=
  if x ∈ l then l else l ++ [x]

/-- The `rows_changed` set of `_redraw_buffer`: the dirty rows, plus — when
the cursor changed — the new cursor row (unless hidden) and the old cursor
row (unless absent or hidden).  Python's `set` fixes no order; this model
lists the dirty rows first. -/
def rowsChanged (s : PyScreen) (last : Option PyCursor) : List ℕ :=
  let base := s.dirty.dedup
  if cursorEq s.cursor last then base
  else
    let base := if !s.cursor.hidden then insertUnique base s.cursor.y else base
    match last with
    | some lc => if !lc.hidden then insertUnique base lc.y else base
    | none => base

/-- Convert one screen line cell-by-cell through `CharacterCell.from_pyte`. -/
def convertLine : List (ℕ × PyteChar) →
    Except String (List (ℕ × CharacterCell))
  | [] => .ok []
  | (c, ch) :: rest =>
    match fromPyte ch with
    | .error e => .error e
    | .ok cell => (convertLine rest).map (fun l => (c, cell) :: l)

/-- Build the redraw buffer for the changed rows. -/
def convertRows (s : PyScreen) : List ℕ →
    Except String (List (ℕ × List (ℕ × CharacterCell)))
  | [] => .ok []
  | r :: rest =>
    match convertLine (bufferRow s.buffer r) with
    | .error e => .error e
    | .ok line => (convertRows s rest).map (fun b => (r, line) :: b)

/-- Python dict item assignment `d[k] = v`: replace in place, or append. -/
def setAssoc {α : Type} : List (ℕ × α) → ℕ → α → List (ℕ × α)
  | [], k, v => [(k, v)]
  | (k', v') :: rest, k, v =>
    if k' = k then (k, v) :: rest else (k', v') :: setAssoc rest k v

/-- `buffer[row][column] = cell` on a `defaultdict(dict)`. -/
def setCell (buf : List (ℕ × List (ℕ × CharacterCell))) (row col : ℕ)
    (cell : CharacterCell) : List (ℕ × List (ℕ × CharacterCell)) :=
  match buf with
  | [] => [(row, [(col, cell)])]
  | (r, line) :: rest =>
    if r = row then (r, setAssoc line col cell) :: rest
    else (r, line) :: setCell rest row col cell

/-- The synthetic cursor character of `_redraw_buffer`: the underlying
cell's text (or a single space if absent), the cursor attrs' colors, and
`reverse=True`; all other attributes are pyte `Char` defaults. -/
def cursorChar (s : PyScreen) : PyteChar :=
  let data :=
    match (bufferRow s.buffer s.cursor.y).lookup s.cursor.x with
    | some ch => ch.data
    | none => " "
  ⟨data, s.cursor.attrs.fg, s.cursor.attrs.bg, false, false, false, false,
    true⟩

/-- `term._redraw_buffer`: build the buffer for the changed rows, overlay
the synthetic cursor cell when the cursor changed and is visible, and
return the buffer with (a copy of) the current cursor. -/
def redrawBuffer (s : PyScreen) (last : Option PyCursor) :
    Except String (List (ℕ × List (ℕ × CharacterCell)) × PyCursor) :=
  match convertRows s (rowsChanged s last) with
  | .error e => .error e
  | .ok buf =>
    if !cursorEq s.cursor last && !s.cursor.hidden then
      match fromPyte (cursorChar s) with
      | .error e => .error e
      | .ok cell => .ok (setCell buf s.cursor.y s.cursor.x cell, s.cursor)
    else .ok (buf, s.cursor)

/-- Cell lookup in a redraw buffer. -/
def cellAt (buf : List (ℕ × List (ℕ × CharacterCell))) (row col : ℕ) :
    Option CharacterCell :=
  (buf.lookup row).bind (fun line => line.lookup col)

theorem lookup_setAssoc {α : Type} (l : List (ℕ × α)) (k : ℕ) (v : α) :
    (setAssoc l k v).lookup k = some v := by
  induction l with
  | nil => simp [setAssoc]
  | cons p rest ih =>
    obtain ⟨k', v'⟩ := p
    by_cases h : k' = k
    · simp [setAssoc, h]
    · have hbeq : (k == k') = false := by
        simp only [beq_eq_false_iff_ne, ne_eq]
        exact fun hh => h hh.symm
      simp only [setAssoc, h, if_false, List.lookup, hbeq]
      exact ih

theorem cellAt_setCell (buf : List (ℕ × List (ℕ × CharacterCell)))
    (row col : ℕ) (cell : CharacterCell) :
    cellAt (setCell buf row col cell) row col = some cell := by
  induction buf with
  | nil => simp [setCell, cellAt, List.lookup, lookup_setAssoc]
  | cons p rest ih =>
    obtain ⟨r, line⟩ := p
    by_cases h : r = row
    · subst h
      simp [setCell, cellAt, List.lookup, lookup_setAssoc]
    · have hbeq : (row == r) = false := by
        simp only [beq_eq_false_iff_ne, ne_eq]
        exact fun hh => h hh.symm
      simp only [setCell, h, if_false, cellAt, List.lookup, hbeq]
      exact ih

/-! ### Claim C6 -/

/-- **C6**, as stated, is false: the overlay is added only when the cursor
*changed* since the previous frame.  With a visible cursor at (0,0) equal to
the previous frame's cursor and row 0 dirty, the emitted buffer holds the
plain converted cell at the cursor position — not the reverse-video
synthetic cell the claim requires (whose color would be `background`). -/
theorem claim_C6_cex :
    redrawBuffer
      ⟨[(0, [(0, ⟨"a", "default", "default", false, false, false, false,
          false⟩)])], [0],
        ⟨0, 0, false, ⟨" ", "default", "default", false, false, false, false,
          false⟩⟩⟩
      (some ⟨0, 0, false, ⟨" ", "default", "default", false, false, false,
        false, false⟩⟩) =
      .ok ([(0, [(0, ⟨"a", "foreground", "background", false, false, false,
        false⟩)])],
        ⟨0, 0, false, ⟨" ", "default", "default", false, false, false, false,
          false⟩⟩) ∧
    (⟨"a", "foreground", "background", false, false, false, false⟩ :
      CharacterCell) ≠
      ⟨"a", "background", "foreground", false, false, false, false⟩ := by
  constructor
  · decide
  · decide

/-- **C6** (amended).  For every frame in which the cursor is visible *and
differs from the previous frame's cursor* (in position or visibility), the
emitted buffer contains at `(cursor.y, cursor.x)` the conversion of a
synthetic reverse-video character whose text is the underlying cell's text
(or a single space when that cell is absent) and whose colors come from the
cursor attributes; the returned cursor is the screen's current cursor, and
the underlying screen buffer is untouched (the overlay exists only in the
returned redraw buffer). -/
theorem claim_C6 (s : PyScreen) (last : Option PyCursor)
    (buf : List (ℕ × List (ℕ × CharacterCell))) (cur : PyCursor)
    (hok : redrawBuffer s last = .ok (buf, cur))
    (hchanged : cursorEq s.cursor last = false)
    (hvis : s.cursor.hidden = false) :
    ∃ cell, fromPyte (cursorChar s) = .ok cell ∧
      cellAt buf s.cursor.y s.cursor.x = some cell ∧
      (cursorChar s).reverse = true ∧
      (cursorChar s).data =
        (match (bufferRow s.buffer s.cursor.y).lookup s.cursor.x with
          | some ch => ch.data
          | none => " ") ∧
      cur = s.cursor := by
  unfold redrawBuffer at hok
  cases hcr : convertRows s (rowsChanged s last) with
  | error e => rw [hcr] at hok; exact absurd hok (by simp)
  | ok b0 =>
    rw [hcr] at hok
    dsimp only at hok
    rw [if_pos (by simp [hchanged, hvis])] at hok
    cases hfp : fromPyte (cursorChar s) with
    | error e => rw [hfp] at hok; exact absurd hok (by simp)
    | ok cell =>
      rw [hfp] at hok
      dsimp only at hok
      simp only [Except.ok.injEq, Prod.mk.injEq] at hok
      obtain ⟨hbuf, hcur⟩ := hok
      subst hbuf
      exact ⟨cell, rfl, cellAt_setCell b0 s.cursor.y s.cursor.x cell, rfl,
        rfl, hcur.symm⟩

/-- Witness for `claim_C6` at a concrete input: the cursor was `None` on the
previous frame (so it changed), and the emitted buffer carries the
reverse-video cell. -/
theorem claim_C6_witness :
    redrawBuffer
      ⟨[(0, [(0, ⟨"a", "default", "default", false, false, false, false,
          false⟩)])], [0],
        ⟨0, 0, false, ⟨" ", "default", "default", false, false, false, false,
          false⟩⟩⟩ none =
      .ok ([(0, [(0, ⟨"a", "background", "foreground", false, false, false,
        false⟩)])],
        ⟨0, 0, false, ⟨" ", "default", "default", false, false, false, false,
          false⟩⟩) ∧
    (∃ cell, fromPyte (cursorChar
        ⟨[(0, [(0, ⟨"a", "default", "default", false, false, false, false,
            false⟩)])], [0],
          ⟨0, 0, false, ⟨" ", "default", "default", false, false, false,
            false, false⟩⟩⟩) = .ok cell ∧
      cellAt [(0, [(0, ⟨"a", "background", "foreground", false, false, false,
        false⟩)])] 0 0 = some cell ∧
      (cursorChar
        ⟨[(0, [(0, ⟨"a", "default", "default", false, false, false, false,
            false⟩)])], [0],
          ⟨0, 0, false, ⟨" ", "default", "default", false, false, false,
            false, false⟩⟩⟩).reverse = true ∧
      (cursorChar
        ⟨[(0, [(0, ⟨"a", "default", "default", false, false, false, false,
            false⟩)])], [0],
          ⟨0, 0, false, ⟨" ", "default", "default", false, false, false,
            false, false⟩⟩⟩).data =
        (match (bufferRow [(0, [(0, ⟨"a", "default", "default", false, false,
            false, false, false⟩)])] 0).lookup 0 with
          | some ch => ch.data
          | none => " ") ∧
      (⟨0, 0, false, ⟨" ", "default", "default", false, false, false, false,
        false⟩⟩ : PyCursor) =
        ⟨0, 0, false, ⟨" ", "default", "default", false, false, false, false,
          false⟩⟩) := by
  constructor
  · decide
  · exact claim_C6
      ⟨[(0, [(0, ⟨"a", "default", "default", false, false, false, false,
          false⟩)])], [0],
        ⟨0, 0, false, ⟨" ", "default", "default", false, false, false, false,
          false⟩⟩⟩ none _ _ (by decide) (by decide) (by decide)

/-! ## The definitions table of `anim._render_line`

`_render_line` canonically serializes the text group of a line *before* any
id is assigned, and uses that serialization as the key of the definitions
table.  A hit reuses the stored definition's id; a miss assigns
`g{len(definitions)+1}`, stamps it on the group and stores it.  The frame
loops (`_render_timed_frame`, `_render_animation`) thread the table through
every rendered line (`{**definitions, **group_definitions}` then
`definitions.update(...)`), which is the sequential threading modelled
here.  Keys are the canonical serializations (opaque strings here), values
the assigned ids. -/

def renderLineDef (s : String) (defs : List (String × String)) :
    String × List (String × String) :=
  match defs.lookup s with
  | some gid => (gid, defs)
  | none =>
    let gid := "g" ++ toString (defs.length + 1)
    (gid, defs ++ [(s, gid)])

/-- Render a sequence of line text groups (given by their canonical
serializations), returning the referenced ids (one `<use>` per line) and
the final definitions table. -/
def renderLines : List String → List (String × String) →
    List String × List (String × String)
  | [], defs => ([], defs)
  | s :: rest, defs =>
    let p := renderLineDef s defs
    let q := renderLines rest p.2
    (p.1 :: q.1, q.2)

theorem lookup_none_not_mem (l : List (String × String)) (s : String)
    (h : l.lookup s = none) : s ∉ l.map Prod.fst := by
  induction l with
  | nil => simp
  | cons p rest ih =>
    obtain ⟨k, v⟩ := p
    intro hmem
    rcases List.mem_cons.mp hmem with heq | hmem'
    · simp only at heq
      subst heq
      simp [List.lookup] at h
    · by_cases hk : s == k
      · simp [List.lookup, hk] at h
      · simp only [List.lookup, hk] at h
        exact ih h hmem'

theorem lookup_some_mem_values (l : List (String × String)) (s gid : String)
    (h : l.lookup s = some gid) : gid ∈ l.map Prod.snd := by
  induction l with
  | nil => simp [List.lookup] at h
  | cons p rest ih =>
    obtain ⟨k, v⟩ := p
    by_cases hk : s == k
    · simp only [List.lookup, hk, Option.some_inj] at h
      subst h
      exact List.mem_cons_self _ _
    · simp only [List.lookup, hk] at h
      exact List.mem_cons_of_mem _ (ih h)

theorem renderLines_spec : ∀ (lines : List String)
    (defs : List (String × String)),
    ((defs.map Prod.fst).Nodup →
      (((renderLines lines defs).2).map Prod.fst).Nodup) ∧
    (∃ t, (renderLines lines defs).2 = defs ++ t) ∧
    (∀ u ∈ (renderLines lines defs).1,
      u ∈ ((renderLines lines defs).2).map Prod.snd) := by
  intro lines
  induction lines with
  | nil =>
    intro defs
    exact ⟨fun h => h, ⟨[], by simp [renderLines]⟩, by simp [renderLines]⟩
  | cons s rest ih =>
    intro defs
    cases hl : defs.lookup s with
    | some gid =>
      have hrl : renderLines (s :: rest) defs =
          ((gid :: (renderLines rest defs).1), (renderLines rest defs).2) := by
        simp [renderLines, renderLineDef, hl]
      obtain ⟨hnd, ⟨t, hext⟩, huse⟩ := ih defs
      refine ⟨by rw [hrl]; exact hnd, ⟨t, by rw [hrl]; exact hext⟩, ?_⟩
      intro u hu
      rw [hrl] at hu ⊢
      rcases List.mem_cons.mp hu with rfl | hu'
      · have : u ∈ defs.map Prod.snd := lookup_some_mem_values defs s u hl
        rw [hext, List.map_append]
        exact List.mem_append_left _ this
      · exact huse u hu'
    | none =>
      have hrl : renderLines (s :: rest) defs =
          (("g" ++ toString (defs.length + 1)) ::
              (renderLines rest
                (defs ++ [(s, "g" ++ toString (defs.length + 1))])).1,
            (renderLines rest
              (defs ++ [(s, "g" ++ toString (defs.length + 1))])).2) := by
        simp [renderLines, renderLineDef, hl]
      obtain ⟨hnd, ⟨t, hext⟩, huse⟩ :=
        ih (defs ++ [(s, "g" ++ toString (defs.length + 1))])
      refine ⟨?_, ?_, ?_⟩
      · intro hdefs
        rw [hrl]
        apply hnd
        rw [List.map_append, List.nodup_append]
        refine ⟨hdefs, by simp, ?_⟩
        intro a ha hb
        simp only [List.map_cons, List.map_nil, List.mem_singleton] at hb
        subst hb
        exact lookup_none_not_mem defs a hl ha
      · refine ⟨[(s, "g" ++ toString (defs.length + 1))] ++ t, ?_⟩
        rw [hrl]
        rw [hext, List.append_assoc]
      · intro u hu
        rw [hrl] at hu ⊢
        rcases List.mem_cons.mp hu with rfl | hu'
        · rw [hext, List.map_append, List.map_append]
          exact List.mem_append_left _ (List.mem_append_right _ (by simp))
        · exact huse u hu'

/-! ### Claim C7 -/

/-- **C7**.  Within one rendered SVG: the definitions table keys (canonical
serializations) are pairwise distinct; every emitted `<use>` references the
id of a definition present in the final table; and a text group whose
serialization is not in the table receives the next id `g{N+1}` where `N`
is the current number of definitions. -/
theorem claim_C7 (lines : List String) :
    (((renderLines lines []).2).map Prod.fst).Nodup ∧
    (∀ u ∈ (renderLines lines []).1,
      u ∈ ((renderLines lines []).2).map Prod.snd) ∧
    (∀ (s : String) (defs : List (String × String)), defs.lookup s = none →
      renderLineDef s defs =
        ("g" ++ toString (defs.length + 1),
          defs ++ [(s, "g" ++ toString (defs.length + 1))])) := by
  obtain ⟨hnd, -, huse⟩ := renderLines_spec lines []
  refine ⟨hnd (by simp), huse, ?_⟩
  intro s defs h
  simp [renderLineDef, h]

/-- Witness for `claim_C7` at a concrete input: rendering the serializations
`["A", "B", "A"]` yields uses `["g1", "g2", "g1"]` over the table
`[("A", "g1"), ("B", "g2")]`. -/
theorem claim_C7_witness :
    renderLines ["A", "B", "A"] [] =
      (["g1", "g2", "g1"], [("A", "g1"), ("B", "g2")]) ∧
    ("g1" ∈ (renderLines ["A", "B", "A"] []).1) ∧
    "g1" ∈ ((renderLines ["A", "B", "A"] []).2).map Prod.snd ∧
    ([("A", "g1")] : List (String × String)).lookup "B" = none ∧
    renderLineDef "B" [("A", "g1")] = ("g2", [("A", "g1"), ("B", "g2")]) := by
  refine ⟨by decide, by decide, ?_, by decide, ?_⟩
  · exact (claim_C7 ["A", "B", "A"]).2.1 "g1" (by decide)
  · exact (claim_C7 ["A", "B", "A"]).2.2 "B" [("A", "g1")] (by decide)

/-! ## SMIL animation chaining (`vectty/anim.py`,
`AsciiAnimation.render_animation`)

`render_animation` groups consecutive records with equal `(time, duration)`
(via `itertools.groupby`), renders one `<g display="none">` per group, and
attaches one `<animate>` to it.  Only the fields that determine the
`<animate>` elements are modelled: each record's row and timing (the line
content only affects the rendered rectangles/text, not `begin`, `dur` or
`id`). -/

structure VRecord where
  row : ℕ
  time : ℤ
  duration : ℤ
deriving DecidableEq, Repr

structure VGroup where
  time : ℤ
  duration : ℤ
  rows : List ℕ
deriving DecidableEq, Repr

/-- `itertools.groupby(records, key=by_time)`: chunk consecutive records
with equal `(time, duration)`. -/
def chunkAux (key : ℤ × ℤ) (accRows : List ℕ) :
    List VRecord → List VGroup
  | [] => [⟨key.1, key.2, accRows.reverse⟩]
  | r :: rest =>
    if r.time = key.1 ∧ r.duration = key.2 then
      chunkAux key (r.row :: accRows) rest
    else
      ⟨key.1, key.2, accRows.reverse⟩ :: chunkAux (r.time, r.duration) [r.row] rest

def chunkRecords : List VRecord → List VGroup
  | [] => []
  | r :: rest => chunkAux (r.time, r.duration) [r.row] rest

/-- One `<animate>` element: its `begin` attribute, its duration in ms, and
its `id`. -/
structure SvgAnimate where
  beginAttr : String
  dur : ℤ
  animId : String
deriving DecidableEq, Repr

/-- The per-row loop of one group: the first row already present in
`row_animations` supplies `animation_begin` (`{prev}.end+{offset}ms`), and
every row's entry is overwritten with the current animation id and end
time. -/
def vRowsLoop (animId : String) (t d : ℤ) :
    List ℕ → List (ℕ × String × ℤ) → Option String →
    List (ℕ × String × ℤ) × Option String
  | [], ra, b? => (ra, b?)
  | row :: rest, ra, b? =>
    let b? :=
      match b?, ra.lookup row with
      | none, some (prevId, prevEnd) =>
        some (prevId ++ ".end+" ++ toString (t - prevEnd) ++ "ms")
      | b, _ => b
    vRowsLoop animId t d rest (setAssoc ra row (animId, t + d)) b?

/-- The group loop of `render_animation`: animation `anim_{i}` for the i-th
group, with `begin` defaulting to `{t}ms;anim_last.end+{t}ms` when no row of
the group was animated before. -/
def vloop : List VGroup → List (ℕ × String × ℤ) → ℕ → List SvgAnimate
  | [], _, _ => []
  | g :: rest, ra, idx =>
    let animId := "anim_" ++ toString idx
    let p := vRowsLoop animId g.time g.duration g.rows ra none
    let beginAttr :=
      match p.2 with
      | some b => b
      | none =>
        toString g.time ++ "ms;anim_last.end+" ++ toString g.time ++ "ms"
    ⟨beginAttr, g.duration, animId⟩ :: vloop rest p.1 (idx + 1)

/-- After the loop, `animation.attribs['id'] = 'anim_last'` overwrites the
id of the last emitted `<animate>`. -/
def renameLast : List SvgAnimate → List SvgAnimate
  | [] => []
  | [a] => [{ a with animId := "anim_last" }]
  | a :: rest => a :: renameLast rest

/-- The `<animate>` elements emitted by `render_animation` for a stream of
records. -/
def renderAnimates (records : List VRecord) : List SvgAnimate :=
  renameLast (vloop (chunkRecords records) [] 0)

/-- Substring test on exploded strings (structural, hence executable in
proofs by `decide`). -/
def scanContains (p l : List Char) : Bool :=
  (List.range (l.length + 1)).any (fun i => p.isPrefixOf (l.drop i))

/-- Whether a `begin` attribute references `anim_last.end`. -/
def chainsToLast (s : String) : Bool :=
  scanContains "anim_last.end".toList s.toList

/-! ### Chaining lemmas for claim C8 -/

theorem lookup_setAssoc_ne {α : Type} (l : List (ℕ × α)) (k k' : ℕ) (v : α)
    (h : k ≠ k') : (setAssoc l k' v).lookup k = l.lookup k := by
  induction l with
  | nil =>
    have hbeq : (k == k') = false := by simp [beq_eq_false_iff_ne, h]
    simp [setAssoc, List.lookup, hbeq]
  | cons p rest ih =>
    obtain ⟨k0, v0⟩ := p
    by_cases h0 : k0 = k'
    · subst h0
      have hbeq : (k == k0) = false := by simp [beq_eq_false_iff_ne, h]
      simp [setAssoc, List.lookup, hbeq]
    · simp only [setAssoc, h0, if_false]
      by_cases hk : k = k0
      · subst hk
        simp [List.lookup]
      · have hbeq : (k == k0) = false := by simp [beq_eq_false_iff_ne, hk]
        simp [List.lookup, hbeq, ih]

theorem mem_setAssoc {α : Type} (l : List (ℕ × α)) (k : ℕ) (v : α)
    (p : ℕ × α) (h : p ∈ setAssoc l k v) : p = (k, v) ∨ p ∈ l := by
  induction l with
  | nil => simpa [setAssoc] using h
  | cons q rest ih =>
    obtain ⟨k0, v0⟩ := q
    by_cases h0 : k0 = k
    · subst h0
      simp only [setAssoc, if_pos rfl] at h
      rcases List.mem_cons.mp h with rfl | hmem
      · exact Or.inl rfl
      · exact Or.inr (List.mem_cons_of_mem _ hmem)
    · simp only [setAssoc, h0, if_false] at h
      rcases List.mem_cons.mp h with rfl | hmem
      · exact Or.inr (List.mem_cons_self _ _)
      · rcases ih hmem with h' | h'
        · exact Or.inl h'
        · exact Or.inr (List.mem_cons_of_mem _ h')

theorem lookup_mem {α : Type} (l : List (ℕ × α)) (k : ℕ) (v : α)
    (h : l.lookup k = some v) : (k, v) ∈ l := by
  induction l with
  | nil => simp [List.lookup] at h
  | cons p rest ih =>
    obtain ⟨k0, v0⟩ := p
    by_cases hk : k == k0
    · simp only [List.lookup, hk, Option.some_inj] at h
      have : k = k0 := by simpa using hk
      subst this
      subst h
      exact List.mem_cons_self _ _
    · simp only [List.lookup, hk] at h
      exact List.mem_cons_of_mem _ (ih h)

theorem scanContains_append (a b : List Char) (p : List Char) :
    scanContains p (a ++ p ++ b) = true := by
  unfold scanContains
  apply List.any_eq_true.mpr
  refine ⟨a.length, ?_, ?_⟩
  · apply List.mem_range.mpr
    simp [List.length_append]
    omega
  · rw [List.append_assoc, List.drop_left]
    exact List.isPrefixOf_iff_prefix.mpr (List.prefix_append _ _)

theorem chainsToLast_append (a b : String) :
    chainsToLast (a ++ "anim_last.end" ++ b) = true := by
  unfold chainsToLast
  have : (a ++ "anim_last.end" ++ b).toList =
      a.toList ++ "anim_last.end".toList ++ b.toList := by
    simp [String.toList, String.data_append]
  rw [this]
  exact scanContains_append _ _ _

theorem chainsToLast_default (t : ℤ) :
    chainsToLast
      (toString t ++ "ms;anim_last.end+" ++ toString t ++ "ms") = true := by
  have h1 : ("ms;anim_last.end+" : String) = "ms;" ++ "anim_last.end" ++ "+" := by
    decide
  have h2 : toString t ++ "ms;anim_last.end+" ++ toString t ++ "ms" =
      (toString t ++ "ms;") ++ "anim_last.end" ++
        ("+" ++ (toString t ++ "ms")) := by
    rw [h1]
    simp only [String.append_assoc]
  rw [h2]
  exact chainsToLast_append _ _

/-- The entries of `row_animations` always carry ids of earlier groups. -/
def RAgood (ra : List (ℕ × String × ℤ)) (idx : ℕ) : Prop :=
  ∀ p ∈ ra, ∃ j, j < idx ∧ p.2.1 = "anim_" ++ toString j

theorem vRowsLoop_ra (animId : String) (t d : ℤ) :
    ∀ (rows : List ℕ) (ra : List (ℕ × String × ℤ)) (b? : Option String),
    ∀ p ∈ (vRowsLoop animId t d rows ra b?).1, p.2.1 = animId ∨ p ∈ ra := by
  intro rows
  induction rows with
  | nil => intro ra b? p hp; exact Or.inr hp
  | cons row rest ih =>
    intro ra b? p hp
    simp only [vRowsLoop] at hp
    rcases ih _ _ p hp with h | h
    · exact Or.inl h
    · rcases mem_setAssoc _ _ _ _ h with h' | h'
      · subst h'
        exact Or.inl rfl
      · exact Or.inr h'

theorem vRowsLoop_begin (idx : ℕ) (t d : ℤ) :
    ∀ (rows : List ℕ) (ra : List (ℕ × String × ℤ)) (b? : Option String),
    rows.Nodup →
    (∀ row ∈ rows, ∀ q : String × ℤ, ra.lookup row = some q →
      ∃ j, j < idx ∧ q.1 = "anim_" ++ toString j) →
    (∀ b, b? = some b → ∃ j, ∃ off : ℤ, j < idx ∧
      b = "anim_" ++ toString j ++ ".end+" ++ toString off ++ "ms") →
    ∀ b, (vRowsLoop ("anim_" ++ toString idx) t d rows ra b?).2 = some b →
      ∃ j, ∃ off : ℤ, j < idx ∧
        b = "anim_" ++ toString j ++ ".end+" ++ toString off ++ "ms" := by
  intro rows
  induction rows with
  | nil =>
    intro ra b? _ _ hb b hout
    exact hb b hout
  | cons row rest ih =>
    intro ra b? hnd hra hb b hout
    simp only [vRowsLoop] at hout
    have hnd' := (List.nodup_cons.mp hnd).2
    have hrow_notin := (List.nodup_cons.mp hnd).1
    refine ih (setAssoc ra row ("anim_" ++ toString idx, t + d)) _ hnd' ?_ ?_
      b hout
    · intro row' hrow' q hq
      have hne : row' ≠ row := fun h => hrow_notin (h ▸ hrow')
      rw [lookup_setAssoc_ne _ _ _ _ hne] at hq
      exact hra row' (List.mem_cons_of_mem _ hrow') q hq
    · intro b0 hb0
      rcases hcb : b? with - | b1
      · subst hcb
        rcases hcl : ra.lookup row with - | q
        · rw [hcl] at hb0
          simp at hb0
        · obtain ⟨prevId, prevEnd⟩ := q
          rw [hcl] at hb0
          simp only [Option.some_inj] at hb0
          obtain ⟨j, hj, hpid⟩ :=
            hra row (List.mem_cons_self _ _) (prevId, prevEnd) hcl
          refine ⟨j, t - prevEnd, hj, ?_⟩
          rw [← hb0]
          simp only at hpid
          rw [hpid]
      · subst hcb
        simp only [Option.some_inj] at hb0
        exact hb b0 (by rw [hb0])

theorem vloop_spec : ∀ (groups : List VGroup) (ra : List (ℕ × String × ℤ))
    (idx : ℕ), (∀ g ∈ groups, g.rows.Nodup) → RAgood ra idx →
    (vloop groups ra idx).length = groups.length ∧
    ∀ i (h : i < (vloop groups ra idx).length),
      ((vloop groups ra idx).get ⟨i, h⟩).animId =
        "anim_" ++ toString (idx + i) ∧
      (chainsToLast ((vloop groups ra idx).get ⟨i, h⟩).beginAttr = true ∨
        ∃ j, ∃ off : ℤ, j < idx + i ∧
          ((vloop groups ra idx).get ⟨i, h⟩).beginAttr =
            "anim_" ++ toString j ++ ".end+" ++ toString off ++ "ms") := by
  intro groups
  induction groups with
  | nil =>
    intro ra idx _ _
    exact ⟨rfl, fun i h => absurd h (by simp [vloop])⟩
  | cons g rest ih =>
    intro ra idx hnodup hgood
    have hgnd : g.rows.Nodup := hnodup g (List.mem_cons_self _ _)
    have hrest : ∀ g' ∈ rest, g'.rows.Nodup :=
      fun g' hg' => hnodup g' (List.mem_cons_of_mem _ hg')
    have hgood' : RAgood
        (vRowsLoop ("anim_" ++ toString idx) g.time g.duration g.rows ra
          none).1 (idx + 1) := by
      intro p hp
      rcases vRowsLoop_ra _ _ _ _ _ _ p hp with h | h
      · exact ⟨idx, Nat.lt_succ_self idx, h⟩
      · obtain ⟨j, hj, hid⟩ := hgood p h
        exact ⟨j, Nat.lt_succ_of_lt hj, hid⟩
    obtain ⟨ihlen, ihspec⟩ := ih _ (idx + 1) hrest hgood'
    constructor
    · simp only [vloop, List.length_cons, ihlen]
    · intro i h
      match i with
      | 0 =>
        constructor
        · simp only [vloop, List.get]
          rw [Nat.add_zero]
        · simp only [vloop, List.get]
          cases hp2 : (vRowsLoop ("anim_" ++ toString idx) g.time g.duration
              g.rows ra none).2 with
          | none =>
            left
            simp only [hp2]
            exact chainsToLast_default g.time
          | some b =>
            right
            have := vRowsLoop_begin idx g.time g.duration g.rows ra none hgnd
              (fun row _ q hq => hgood (row, q) (lookup_mem _ _ _ hq))
              (fun b0 hb0 => by simp at hb0) b hp2
            obtain ⟨j, off, hj, hb⟩ := this
            refine ⟨j, off, by omega, ?_⟩
            simp only [hp2]
            exact hb
      | i + 1 =>
        have hlen2 : (vloop (g :: rest) ra idx).length =
            (vloop rest
              (vRowsLoop ("anim_" ++ toString idx) g.time g.duration g.rows
                ra none).1 (idx + 1)).length + 1 := by
          simp only [vloop, List.length_cons]
        have h' : i < (vloop rest
            (vRowsLoop ("anim_" ++ toString idx) g.time g.duration g.rows ra
              none).1 (idx + 1)).length := by
          rw [hlen2] at h
          omega
        have hget : (vloop (g :: rest) ra idx).get ⟨i + 1, h⟩ =
            (vloop rest
              (vRowsLoop ("anim_" ++ toString idx) g.time g.duration g.rows
                ra none).1 (idx + 1)).get ⟨i, h'⟩ := rfl
        obtain ⟨hid, hbeg⟩ := ihspec i h'
        constructor
        · have harith : idx + 1 + i = idx + (i + 1) := by omega
          rw [hget, hid, harith]
        · rw [hget]
          rcases hbeg with hc | ⟨j, off, hj, hb⟩
          · exact Or.inl hc
          · exact Or.inr ⟨j, off, by omega, hb⟩

theorem renameLast_length : ∀ l : List SvgAnimate,
    (renameLast l).length = l.length := by
  intro l
  induction l with
  | nil => rfl
  | cons a rest ih =>
    cases rest with
    | nil => rfl
    | cons b rest' => simp only [renameLast, List.length_cons, ih]

theorem renameLast_beginAttr : ∀ (l : List SvgAnimate) (i : ℕ)
    (h : i < (renameLast l).length) (h' : i < l.length),
    ((renameLast l).get ⟨i, h⟩).beginAttr = (l.get ⟨i, h'⟩).beginAttr := by
  intro l
  induction l with
  | nil => intro i h h'; simp at h'
  | cons a rest ih =>
    intro i h h'
    cases rest with
    | nil =>
      match i, h' with
      | 0, _ => rfl
    | cons b rest' =>
      match i, h, h' with
      | 0, h, h' => rfl
      | i + 1, h, h' =>
        have hr : renameLast (a :: b :: rest') = a :: renameLast (b :: rest') :=
          rfl
        have h1 : i < (renameLast (b :: rest')).length := by
          rw [hr, List.length_cons] at h
          omega
        have h2 : i < (b :: rest').length := by
          rw [List.length_cons] at h'
          omega
        calc ((renameLast (a :: b :: rest')).get ⟨i + 1, h⟩).beginAttr
            = ((renameLast (b :: rest')).get ⟨i, h1⟩).beginAttr := rfl
          _ = ((b :: rest').get ⟨i, h2⟩).beginAttr := ih i h1 h2

theorem renameLast_last_id : ∀ (l : List SvgAnimate)
    (h : renameLast l ≠ []), ((renameLast l).getLast h).animId = "anim_last" := by
  intro l
  induction l with
  | nil => intro h; exact absurd rfl h
  | cons a rest ih =>
    intro h
    cases rest with
    | nil => rfl
    | cons b rest' =>
      have hne : renameLast (b :: rest') ≠ [] := by
        have := renameLast_length (b :: rest')
        intro hnil
        rw [hnil] at this
        simp at this
      calc ((renameLast (a :: b :: rest')).getLast h).animId
          = ((a :: renameLast (b :: rest')).getLast (by simp [renameLast])).animId := rfl
        _ = ((renameLast (b :: rest')).getLast hne).animId := by
            rw [List.getLast_cons hne]
        _ = "anim_last" := ih hne

/-! ### Claim C8 -/

/-- **C8**, as stated, is false: when a row is animated a second time, the
second group's `<animate>` chains to the *previous animation on that row*
(`anim_0.end+0ms` below), not to `anim_last.end`.  Records: row 0 at t=0 and
t=100, then row 1 at t=200, all with duration 100 ms; the middle `<animate>`
is not the last one, yet its `begin` does not reference `anim_last`. -/
theorem claim_C8_cex :
    ¬ (∀ i (h : i <
        (renderAnimates [⟨0, 0, 100⟩, ⟨0, 100, 100⟩, ⟨1, 200, 100⟩]).length),
        i + 1 <
          (renderAnimates [⟨0, 0, 100⟩, ⟨0, 100, 100⟩, ⟨1, 200, 100⟩]).length →
        chainsToLast ((renderAnimates
          [⟨0, 0, 100⟩, ⟨0, 100, 100⟩, ⟨1, 200, 100⟩]).get
            ⟨i, h⟩).beginAttr = true) := by
  decide

/-! ## The line-event generator (`term._feed` and the `screen_events` loop)

`screen_events` drives pyte over each coalesced frame, obtains the redraw
buffer for the frame (modelled here as an arbitrary row → line mapping with
distinct rows, since the pyte emulation itself is out of scope), calls
`_feed`, and advances the clock by `int(1000 * duration)`.  `DisplayLine`
events with `duration = None` mark a line's appearance; a later event for
the same row carries the duration during which it stayed on screen. -/

abbrev Line := List (ℕ × CharacterCell)

abbrev RBuf := List (ℕ × Line)

structure DisplayLine where
  row : ℕ
  line : Line
  time : ℤ
  duration : Option ℤ
deriving DecidableEq, Repr

/-- Close the pending event of one row at the current time:
`event_without_duration._replace(duration=time - event.time)`. -/
def closeEv (time : ℤ) (p : ℕ × Line × ℤ) : DisplayLine :=
  ⟨p.1, p.2.1, p.2.2, some (time - p.2.2)⟩

/-- `term._feed(redraw_buffer, display_events, time)`: close the pending
events of redrawn rows, then (re)open the non-empty redrawn lines.  First
component: the updated `display_events`; second: the emitted events. -/
def feed (redraw : RBuf) (disp : List (ℕ × Line × ℤ)) (time : ℤ) :
    List (ℕ × Line × ℤ) × List DisplayLine :=
  let closed := (disp.filter (fun p => (redraw.lookup p.1).isSome)).map
    (closeEv time)
  let kept := disp.filter (fun p => (redraw.lookup p.1).isNone)
  let opened := redraw.filter (fun p => !p.2.isEmpty)
  (kept ++ opened.map (fun p => (p.1, p.2, time)),
   closed ++ opened.map (fun p => ⟨p.1, p.2, time, none⟩))

/-- The frame loop of `screen_events`, starting after the header handling:
feed each frame's redraw buffer, yield the non-empty event groups, advance
the clock by `int(1000 * duration)`, and finally flush the still-pending
events with their accumulated durations. -/
def screenEventsLoop : List (RBuf × ℚ) → List (ℕ × Line × ℤ) → ℤ →
    List (List DisplayLine)
  | [], disp, time =>
    let events := disp.map (closeEv time)
    if events.isEmpty then [] else [events]
  | (buf, d) :: rest, disp, time =>
    let p := feed buf disp time
    let tail := screenEventsLoop rest p.1 (time + pyInt (1000 * d))
    if p.2.isEmpty then tail else p.2 :: tail

/-- All line events of a recording's frames, flattened. -/
def lineEvents (frames : List (RBuf × ℚ)) : List DisplayLine :=
  (screenEventsLoop frames [] 0).flatten

/-- A closed line event is active (visible) at instant `x` when
`time ≤ x < time + duration`; an appearance event (`duration = None`) is
not by itself an interval. -/
def activeAt (e : DisplayLine) (x : ℤ) : Prop :=
  match e.duration with
  | some d => e.time ≤ x ∧ x < e.time + d
  | none => False

/-- Two events never active at the same instant. -/
def DisjointEv (e1 e2 : DisplayLine) : Prop :=
  ∀ x : ℤ, ¬ (activeAt e1 x ∧ activeAt e2 x)

theorem activeAt_closeEv (time : ℤ) (p : ℕ × Line × ℤ) (x : ℤ) :
    activeAt (closeEv time p) x ↔ p.2.2 ≤ x ∧ x < time := by
  simp only [activeAt, closeEv]
  constructor
  · rintro ⟨h1, h2⟩
    exact ⟨h1, by omega⟩
  · rintro ⟨h1, h2⟩
    exact ⟨h1, by omega⟩

theorem pyInt_nonneg (q : ℚ) (h : 0 ≤ q) : 0 ≤ pyInt q := by
  unfold pyInt
  have hnum : 0 ≤ q.num := Rat.num_nonneg.mpr h
  have hden : (0 : ℤ) ≤ (q.den : ℤ) := Int.ofNat_nonneg q.den
  exact Int.tdiv_nonneg hnum hden

theorem lookup_none_not_mem_keys {α β : Type} [BEq α] [LawfulBEq α]
    (l : List (α × β)) (k : α) (h : l.lookup k = none) :
    k ∉ l.map Prod.fst := by
  induction l with
  | nil => simp
  | cons p rest ih =>
    obtain ⟨k0, v0⟩ := p
    intro hmem
    rcases List.mem_cons.mp hmem with heq | hmem'
    · simp only at heq
      subst heq
      simp [List.lookup] at h
    · by_cases hk : k == k0
      · simp [List.lookup, hk] at h
      · simp only [List.lookup, hk] at h
        exact ih h hmem'

theorem lookup_ne_none_of_mem_keys {α β : Type} [BEq α] [LawfulBEq α]
    (l : List (α × β)) (k : α) (h : k ∈ l.map Prod.fst) :
    l.lookup k ≠ none :=
  fun hn => lookup_none_not_mem_keys l k hn h

/-- Closing pending events of rows with pairwise-distinct keys yields, for
any row `r`, at most one event, hence a pairwise disjoint family. -/
theorem closed_pairwise (T : ℤ) (disp : List (ℕ × Line × ℤ))
    (h : (disp.map Prod.fst).Nodup) (r : ℕ) :
    ((disp.map (closeEv T)).filter (fun e => e.row == r)).Pairwise
      DisjointEv := by
  have h1 : disp.Pairwise (fun p q => p.1 ≠ q.1) := List.pairwise_map.mp h
  have h2 : (disp.map (closeEv T)).Pairwise (fun e1 e2 => e1.row ≠ e2.row) := by
    rw [List.pairwise_map]
    exact h1
  have h3 : ((disp.map (closeEv T)).filter (fun e => e.row == r)).Pairwise
      (fun e1 e2 => e1.row ≠ e2.row) :=
    h2.sublist (List.filter_sublist _)
  refine List.Pairwise.imp_of_mem ?_ h3
  intro a b ha hb hne
  have har : a.row = r := by simpa using (List.mem_filter.mp ha).2
  have hbr : b.row = r := by simpa using (List.mem_filter.mp hb).2
  exact absurd (har.trans hbr.symm) hne

theorem inactive_pairwise (l : List DisplayLine)
    (h : ∀ e ∈ l, ∀ x : ℤ, ¬ activeAt e x) : l.Pairwise DisjointEv := by
  induction l with
  | nil => exact List.Pairwise.nil
  | cons a rest ih =>
    refine List.Pairwise.cons ?_ (ih ?_)
    · intro b _ x hx
      exact h a (List.mem_cons_self _ _) x hx.1
    · intro e he x
      exact h e (List.mem_cons_of_mem _ he) x

/-- The loop invariant of the line-event generator: pending rows are
distinct, pending events opened no later than the clock, all past activity
lies strictly before the clock, the past activity of a pending row lies
before that row's (re)open time, and the events emitted so far are pairwise
disjoint row by row. -/
def Inv (H : List DisplayLine) (disp : List (ℕ × Line × ℤ))
    (time : ℤ) : Prop :=
  (disp.map Prod.fst).Nodup ∧
  (∀ p ∈ disp, p.2.2 ≤ time) ∧
  (∀ e ∈ H, ∀ x : ℤ, activeAt e x → x < time) ∧
  (∀ p ∈ disp, ∀ e ∈ H, e.row = p.1 → ∀ x : ℤ, activeAt e x → x < p.2.2) ∧
  (∀ r, (H.filter (fun e => e.row == r)).Pairwise DisjointEv)

theorem flush_pairwise (H : List DisplayLine)
    (disp : List (ℕ × Line × ℤ)) (T : ℤ) (hInv : Inv H disp T) (r : ℕ) :
    ((H ++ disp.map (closeEv T)).filter (fun e => e.row == r)).Pairwise
      DisjointEv := by
  obtain ⟨hnd, -, -, hcross, hpw⟩ := hInv
  rw [List.filter_append, List.pairwise_append]
  refine ⟨hpw r, closed_pairwise T disp hnd r, ?_⟩
  intro a ha b hb
  have haH := (List.mem_filter.mp ha).1
  have har : a.row = r := by simpa using (List.mem_filter.mp ha).2
  have hbmem := (List.mem_filter.mp hb).1
  have hbr : b.row = r := by simpa using (List.mem_filter.mp hb).2
  obtain ⟨p, hp, rfl⟩ := List.mem_map.mp hbmem
  intro x hx
  obtain ⟨hax, hbx⟩ := hx
  have hrowp : (closeEv T p).row = p.1 := rfl
  have hlt := hcross p hp a haH (by rw [har, ← hbr, hrowp]) x hax
  have hge := ((activeAt_closeEv T p x).mp hbx).1
  omega

theorem step_Inv (H : List DisplayLine) (disp : List (ℕ × Line × ℤ))
    (T k : ℤ) (redraw : RBuf) (hInv : Inv H disp T)
    (hrnd : (redraw.map Prod.fst).Nodup) (hk : 0 ≤ k) :
    Inv (H ++ (feed redraw disp T).2) (feed redraw disp T).1 (T + k) := by
  obtain ⟨hnd, hle, hHlt, hcross, hpw⟩ := hInv
  have hfeed1 : (feed redraw disp T).1 =
      disp.filter (fun p => (redraw.lookup p.1).isNone) ++
        (redraw.filter (fun p => !p.2.isEmpty)).map (fun p => (p.1, p.2, T)) :=
    rfl
  have hfeed2 : (feed redraw disp T).2 =
      (disp.filter (fun p => (redraw.lookup p.1).isSome)).map (closeEv T) ++
        (redraw.filter (fun p => !p.2.isEmpty)).map
          (fun p => ⟨p.1, p.2, T, none⟩) := rfl
  have hclosed_nd : ((disp.filter
      (fun p => (redraw.lookup p.1).isSome)).map Prod.fst).Nodup :=
    hnd.sublist ((List.filter_sublist _).map _)
  have hopened_inactive : ∀ e ∈ (redraw.filter (fun p => !p.2.isEmpty)).map
      (fun p => (⟨p.1, p.2, T, none⟩ : DisplayLine)), ∀ x : ℤ,
      ¬ activeAt e x := by
    intro e he x hx
    obtain ⟨q, -, rfl⟩ := List.mem_map.mp he
    simp [activeAt] at hx
  have hclosed_lt : ∀ e ∈ (disp.filter
      (fun p => (redraw.lookup p.1).isSome)).map (closeEv T), ∀ x : ℤ,
      activeAt e x → x < T := by
    intro e he x hx
    obtain ⟨q, -, rfl⟩ := List.mem_map.mp he
    exact ((activeAt_closeEv T q x).mp hx).2
  refine ⟨?_, ?_, ?_, ?_, ?_⟩
  · rw [hfeed1, List.map_append, List.nodup_append]
    refine ⟨hnd.sublist ((List.filter_sublist _).map _), ?_, ?_⟩
    · have hmeq : ((redraw.filter (fun p => !p.2.isEmpty)).map
          (fun p => ((p.1, p.2, T) : ℕ × Line × ℤ))).map Prod.fst =
          (redraw.filter (fun p => !p.2.isEmpty)).map Prod.fst := by
        simp
      rw [hmeq]
      exact hrnd.sublist ((List.filter_sublist _).map _)
    · intro a ha hb
      obtain ⟨p, hp, rfl⟩ := List.mem_map.mp ha
      have hnone : redraw.lookup p.1 = none := by
        have := (List.mem_filter.mp hp).2
        simpa [Option.isNone_iff_eq_none] using this
      obtain ⟨e', he', heq⟩ := List.mem_map.mp hb
      obtain ⟨q, hq, rfl⟩ := List.mem_map.mp he'
      simp only at heq
      have hqmem : q.1 ∈ redraw.map Prod.fst :=
        List.mem_map.mpr ⟨q, (List.mem_filter.mp hq).1, rfl⟩
      rw [heq] at hqmem
      exact lookup_ne_none_of_mem_keys redraw p.1 hqmem hnone
  · rw [hfeed1]
    intro p hp
    rcases List.mem_append.mp hp with hpk | hpo
    · have := hle p (List.mem_filter.mp hpk).1
      omega
    · obtain ⟨q, -, rfl⟩ := List.mem_map.mp hpo
      simp only
      omega
  · rw [hfeed2]
    intro e he x hx
    rcases List.mem_append.mp he with heH | hev
    · have := hHlt e heH x hx
      omega
    · rcases List.mem_append.mp hev with hec | heo
      · have := hclosed_lt e hec x hx
        omega
      · exact absurd hx (hopened_inactive e heo x)
  · rw [hfeed1, hfeed2]
    intro p hp e he hrow x hax
    rcases List.mem_append.mp hp with hpk | hpo
    · have hpd := (List.mem_filter.mp hpk).1
      have hpnone : redraw.lookup p.1 = none := by
        have := (List.mem_filter.mp hpk).2
        simpa [Option.isNone_iff_eq_none] using this
      rcases List.mem_append.mp he with heH | hev
      · exact hcross p hpd e heH hrow x hax
      · rcases List.mem_append.mp hev with hec | heo
        · obtain ⟨q, hq, rfl⟩ := List.mem_map.mp hec
          have hqsome : (redraw.lookup q.1).isSome := (List.mem_filter.mp hq).2
          have hrowq : (closeEv T q).row = q.1 := rfl
          rw [hrowq] at hrow
          rw [hrow, hpnone] at hqsome
          simp at hqsome
        · exact absurd hax (hopened_inactive e heo x)
    · obtain ⟨q, hq, rfl⟩ := List.mem_map.mp hpo
      simp only
      rcases List.mem_append.mp he with heH | hev
      · exact hHlt e heH x hax
      · rcases List.mem_append.mp hev with hec | heo
        · exact hclosed_lt e hec x hax
        · exact absurd hax (hopened_inactive e heo x)
  · rw [hfeed2]
    intro r
    rw [← List.append_assoc, List.filter_append, List.filter_append,
      List.pairwise_append, List.pairwise_append]
    refine ⟨⟨hpw r, closed_pairwise T _ hclosed_nd r, ?_⟩, ?_, ?_⟩
    · -- H events vs newly closed events
      intro a ha b hb
      have haH := (List.mem_filter.mp ha).1
      have har : a.row = r := by simpa using (List.mem_filter.mp ha).2
      have hbmem := (List.mem_filter.mp hb).1
      have hbr : b.row = r := by simpa using (List.mem_filter.mp hb).2
      obtain ⟨p, hp, rfl⟩ := List.mem_map.mp hbmem
      intro x hx
      obtain ⟨hax, hbx⟩ := hx
      have hrowp : (closeEv T p).row = p.1 := rfl
      have hlt := hcross p (List.mem_filter.mp hp).1 a haH
        (by rw [har, ← hbr, hrowp]) x hax
      have hge := ((activeAt_closeEv T p x).mp hbx).1
      omega
    · -- newly opened events are inactive
      refine inactive_pairwise _ ?_
      intro e he x
      exact hopened_inactive e (List.mem_filter.mp he).1 x
    · -- anything vs newly opened events
      intro a _ b hb x hx
      exact hopened_inactive b (List.mem_filter.mp hb).1 x hx.2

theorem loop_pairwise : ∀ (frames : List (RBuf × ℚ))
    (disp : List (ℕ × Line × ℤ)) (time : ℤ) (H : List DisplayLine),
    Inv H disp time →
    (∀ p ∈ frames, 0 ≤ p.2) →
    (∀ p ∈ frames, (p.1.map Prod.fst).Nodup) →
    ∀ r, ((H ++ (screenEventsLoop frames disp time).flatten).filter
      (fun e => e.row == r)).Pairwise DisjointEv := by
  intro frames
  induction frames with
  | nil =>
    intro disp time H hInv _ _ r
    have hjoin : (screenEventsLoop [] disp time).flatten =
        disp.map (closeEv time) := by
      simp only [screenEventsLoop]
      by_cases he : (disp.map (closeEv time)).isEmpty
      · rw [if_pos he]
        rw [List.isEmpty_iff] at he
        rw [he]
        rfl
      · rw [if_neg he]
        simp
    rw [hjoin]
    exact flush_pairwise H disp time hInv r
  | cons f rest ih =>
    intro disp time H hInv hd hnd r
    obtain ⟨buf, d⟩ := f
    have hjoin : (screenEventsLoop ((buf, d) :: rest) disp time).flatten =
        (feed buf disp time).2 ++
          (screenEventsLoop rest (feed buf disp time).1
            (time + pyInt (1000 * d))).flatten := by
      simp only [screenEventsLoop]
      by_cases he : (feed buf disp time).2.isEmpty
      · rw [if_pos he]
        rw [List.isEmpty_iff] at he
        rw [he]
        simp
      · rw [if_neg he]
        simp
    have hdnn : (0 : ℚ) ≤ 1000 * d :=
      mul_nonneg (by norm_num) (hd (buf, d) (List.mem_cons_self _ _))
    have hInv' : Inv (H ++ (feed buf disp time).2) (feed buf disp time).1
        (time + pyInt (1000 * d)) :=
      step_Inv H disp time (pyInt (1000 * d)) buf hInv
        (hnd (buf, d) (List.mem_cons_self _ _)) (pyInt_nonneg _ hdnn)
    rw [hjoin, ← List.append_assoc]
    exact ih _ _ _ hInv' (fun p hp => hd p (List.mem_cons_of_mem _ hp))
      (fun p hp => hnd p (List.mem_cons_of_mem _ hp)) r

/-! ### Claim C4 -/

/-- **C4**.  For every recording processed by the line-event generator
(arbitrary per-frame redraw buffers with distinct rows, nonnegative frame
durations as produced by the coalescer) and every screen row `r`, the
intervals `[time, time + duration)` of the closed line events emitted for
row `r` are pairwise disjoint; equivalently, at any instant at most one
line event for row `r` is active. -/
theorem claim_C4 (frames : List (RBuf × ℚ))
    (hd : ∀ p ∈ frames, 0 ≤ p.2)
    (hnd : ∀ p ∈ frames, (p.1.map Prod.fst).Nodup) (r : ℕ) :
    ((lineEvents frames).filter (fun e => e.row == r)).Pairwise DisjointEv := by
  have hInv0 : Inv [] [] 0 := by
    refine ⟨by simp, by simp, by simp, by simp, ?_⟩
    intro r
    simp
  have h := loop_pairwise frames [] 0 [] hInv0 hd hnd r
  simpa [lineEvents] using h

/-- Witness for `claim_C4` at a concrete input: one frame opening row 0. -/
theorem claim_C4_witness :
    (∀ p ∈ [(([(0, [(0, (⟨"a", "foreground", "background", false, false,
        false, false⟩ : CharacterCell))])] : RBuf), (1 : ℚ))], 0 ≤ p.2) ∧
    (∀ p ∈ [(([(0, [(0, (⟨"a", "foreground", "background", false, false,
        false, false⟩ : CharacterCell))])] : RBuf), (1 : ℚ))],
      (p.1.map Prod.fst).Nodup) ∧
    ((lineEvents [(([(0, [(0, (⟨"a", "foreground", "background", false,
        false, false, false⟩ : CharacterCell))])] : RBuf), (1 : ℚ))]).filter
      (fun e => e.row == 0)).Pairwise DisjointEv := by
  have hd : ∀ p ∈ [(([(0, [(0, (⟨"a", "foreground", "background", false,
      false, false, false⟩ : CharacterCell))])] : RBuf), (1 : ℚ))],
      0 ≤ p.2 := by
    intro p hp
    rw [List.mem_singleton] at hp
    subst hp
    norm_num
  have hnd : ∀ p ∈ [(([(0, [(0, (⟨"a", "foreground", "background", false,
      false, false, false⟩ : CharacterCell))])] : RBuf), (1 : ℚ))],
      (p.1.map Prod.fst).Nodup := by
    intro p hp
    rw [List.mem_singleton] at hp
    subst hp
    decide
  exact ⟨hd, hnd, claim_C4 _ hd hnd 0⟩

/-! ### Characters of rendered begin attributes

A `begin` of the form `anim_{j}.end+{off}ms` consists of the letters of
`anim_`/`.end+`/`ms`, decimal digits and possibly a minus sign; it never
contains the letter `l`, hence never references `anim_last.end`. -/

theorem scanContains_mem (p l : List Char) (h : scanContains p l = true) :
    ∀ c ∈ p, c ∈ l := by
  unfold scanContains at h
  obtain ⟨i, -, hpre⟩ := List.any_eq_true.mp h
  intro c hc
  have hsub : p <+: l.drop i := List.isPrefixOf_iff_prefix.mp hpre
  exact List.drop_subset i l (hsub.subset hc)

theorem digitChar_isDigit : ∀ m, m < 10 → (Nat.digitChar m).isDigit = true := by
  decide

theorem toDigitsCore_mem : ∀ (f n : ℕ) (acc : List Char),
    ∀ c ∈ Nat.toDigitsCore 10 f n acc, c ∈ acc ∨ c.isDigit = true := by
  intro f
  induction f with
  | zero => intro n acc c hc; exact Or.inl hc
  | succ f ih =>
    intro n acc c hc
    simp only [Nat.toDigitsCore] at hc
    by_cases h : n / 10 = 0
    · rw [if_pos h] at hc
      rcases List.mem_cons.mp hc with rfl | hmem
      · exact Or.inr (digitChar_isDigit _ (Nat.mod_lt _ (by norm_num)))
      · exact Or.inl hmem
    · rw [if_neg h] at hc
      rcases ih (n / 10) (Nat.digitChar (n % 10) :: acc) c hc with hmem | hdig
      · rcases List.mem_cons.mp hmem with rfl | hmem'
        · exact Or.inr (digitChar_isDigit _ (Nat.mod_lt _ (by norm_num)))
        · exact Or.inl hmem'
      · exact Or.inr hdig

theorem mem_natToString_isDigit (n : ℕ) (c : Char)
    (hc : c ∈ (toString n).toList) : c.isDigit = true := by
  have heq : (toString n).toList = Nat.toDigitsCore 10 (n + 1) n [] := rfl
  rw [heq] at hc
  rcases toDigitsCore_mem (n + 1) n [] c hc with h | h
  · simp at h
  · exact h

theorem mem_intToString (i : ℤ) (c : Char) (hc : c ∈ (toString i).toList) :
    c = '-' ∨ c.isDigit = true := by
  cases i with
  | ofNat m =>
    exact Or.inr (mem_natToString_isDigit m c hc)
  | negSucc m =>
    have heq : (toString (Int.negSucc m)).toList =
        '-' :: (toString (m + 1)).toList := rfl
    rw [heq] at hc
    rcases List.mem_cons.mp hc with rfl | hmem
    · exact Or.inl rfl
    · exact Or.inr (mem_natToString_isDigit (m + 1) c hmem)

theorem chainsToLast_anim_ref (j : ℕ) (off : ℤ) :
    chainsToLast
      ("anim_" ++ toString j ++ ".end+" ++ toString off ++ "ms") = false := by
  rcases Bool.eq_false_or_eq_true (chainsToLast
    ("anim_" ++ toString j ++ ".end+" ++ toString off ++ "ms")) with h | h
  case inr => exact h
  · exfalso
    simp only [chainsToLast] at h
    have hl : ('l' : Char) ∈
        ("anim_" ++ toString j ++ ".end+" ++ toString off ++ "ms").toList :=
      scanContains_mem _ _ h 'l' (by decide)
    have hsplit : ("anim_" ++ toString j ++ ".end+" ++ toString off ++
        "ms").toList = "anim_".toList ++ (toString j).toList ++
          ".end+".toList ++ (toString off).toList ++ "ms".toList := by
      simp [String.toList, String.data_append]
    rw [hsplit] at hl
    simp only [List.mem_append] at hl
    rcases hl with ((((h1 | h2) | h3) | h4) | h5)
    · exact absurd h1 (by decide)
    · exact absurd (mem_natToString_isDigit j 'l' h2) (by decide)
    · exact absurd h3 (by decide)
    · rcases mem_intToString off 'l' h4 with he | hd
      · exact absurd he (by decide)
      · exact absurd hd (by decide)
    · exact absurd h5 (by decide)

theorem vRowsLoop_some_stays (animId : String) (t d : ℤ) :
    ∀ (rows : List ℕ) (ra : List (ℕ × String × ℤ)) (b : String),
    (vRowsLoop animId t d rows ra (some b)).2 = some b := by
  intro rows
  induction rows with
  | nil => intro ra b; rfl
  | cons row rest ih =>
    intro ra b
    simp only [vRowsLoop]
    exact ih _ b

theorem vRowsLoop_none_iff (animId : String) (t d : ℤ) :
    ∀ (rows : List ℕ) (ra : List (ℕ × String × ℤ)), rows.Nodup →
    ((vRowsLoop animId t d rows ra none).2 = none ↔
      ∀ row ∈ rows, ra.lookup row = none) := by
  intro rows
  induction rows with
  | nil =>
    intro ra _
    simp [vRowsLoop]
  | cons row rest ih =>
    intro ra hnd
    have hnd' := (List.nodup_cons.mp hnd).2
    have hrow_notin := (List.nodup_cons.mp hnd).1
    simp only [vRowsLoop]
    rcases hcl : ra.lookup row with - | q
    · dsimp only
      have hiff := ih (setAssoc ra row (animId, t + d)) hnd'
      constructor
      · intro hout row' hrow'
        rcases List.mem_cons.mp hrow' with rfl | hmem
        · exact hcl
        · have hne : row' ≠ row := fun h => hrow_notin (h ▸ hmem)
          have := hiff.mp hout row' hmem
          rw [lookup_setAssoc_ne _ _ _ _ hne] at this
          exact this
      · intro hall
        apply hiff.mpr
        intro row' hmem
        have hne : row' ≠ row := fun h => hrow_notin (h ▸ hmem)
        rw [lookup_setAssoc_ne _ _ _ _ hne]
        exact hall row' (List.mem_cons_of_mem _ hmem)
    · obtain ⟨prevId, prevEnd⟩ := q
      dsimp only
      constructor
      · intro hout
        rw [vRowsLoop_some_stays] at hout
        simp at hout
      · intro hall
        have := hall row (List.mem_cons_self _ _)
        rw [hcl] at this
        simp at this

theorem vRowsLoop_keys (animId : String) (t d : ℤ) :
    ∀ (rows : List ℕ) (ra : List (ℕ × String × ℤ)) (b? : Option String)
      (row' : ℕ),
    (((vRowsLoop animId t d rows ra b?).1.lookup row').isSome = true ↔
      (row' ∈ rows ∨ (ra.lookup row').isSome = true)) := by
  intro rows
  induction rows with
  | nil =>
    intro ra b? row'
    simp [vRowsLoop]
  | cons row rest ih =>
    intro ra b? row'
    simp only [vRowsLoop]
    rw [ih]
    by_cases heq : row' = row
    · subst heq
      rw [lookup_setAssoc]
      simp [List.mem_cons]
    · rw [lookup_setAssoc_ne _ _ _ _ heq]
      simp only [List.mem_cons]
      constructor
      · rintro (h | h)
        · exact Or.inl (Or.inr h)
        · exact Or.inr h
      · rintro ((h | h) | h)
        · exact absurd h heq
        · exact Or.inl h
        · exact Or.inr h

/-- Conditional characterisation of the `begin` attribute produced by
`vloop`: a group none of whose rows is in the domain of `row_animations`
(described by the predicate `P`) nor in any earlier group gets the default
begin `{t}ms;anim_last.end+{t}ms`, while a group reusing such a row chains
to `anim_{j}.end+{off}ms` for some earlier `j`. -/
theorem vloop_begin_cases :
    ∀ (groups : List VGroup) (ra : List (ℕ × String × ℤ)) (idx : ℕ)
      (P : ℕ → Prop),
    (∀ g ∈ groups, g.rows.Nodup) →
    RAgood ra idx →
    (∀ row, ((ra.lookup row).isSome = true ↔ P row)) →
    ∀ (i : ℕ) (a : SvgAnimate) (g : VGroup),
      (vloop groups ra idx)[i]? = some a → groups[i]? = some g →
      ((∀ row ∈ g.rows, ¬ P row ∧
          ∀ (j : ℕ) (gj : VGroup), j < i → groups[j]? = some gj →
            row ∉ gj.rows) →
        a.beginAttr =
          toString g.time ++ "ms;anim_last.end+" ++ toString g.time ++ "ms") ∧
      ((∃ row ∈ g.rows, P row ∨
          ∃ (j : ℕ) (gj : VGroup), j < i ∧ groups[j]? = some gj ∧
            row ∈ gj.rows) →
        ∃ j, ∃ off : ℤ, j < idx + i ∧
          a.beginAttr =
            "anim_" ++ toString j ++ ".end+" ++ toString off ++ "ms") := by
  intro groups
  induction groups with
  | nil =>
    intro ra idx P _ _ _ i a g ha _
    simp [vloop] at ha
  | cons g0 rest ih =>
    intro ra idx P hnodup hgood hdom i a g ha hg
    match i with
    | 0 =>
      simp only [vloop, List.getElem?_cons_zero, Option.some_inj] at ha hg
      subst hg
      constructor
      · intro hnone
        have hlooks : ∀ row ∈ g0.rows, ra.lookup row = none := by
          intro row hrow
          rcases hopt : ra.lookup row with - | v
          · rfl
          · exact absurd ((hdom row).mp (by rw [hopt]; rfl))
              (hnone row hrow).1
        have hres : (vRowsLoop ("anim_" ++ toString idx) g0.time g0.duration
            g0.rows ra none).2 = none :=
          (vRowsLoop_none_iff _ _ _ _ ra
            (hnodup g0 (List.mem_cons_self _ _))).mpr hlooks
        rw [← ha]
        simp only [hres]
      · rintro ⟨row, hrow, hcase⟩
        have hP : P row := by
          rcases hcase with h | ⟨j, gj, hj, -, -⟩
          · exact h
          · omega
        have hsome : (ra.lookup row).isSome = true := (hdom row).mpr hP
        rcases hopt : (vRowsLoop ("anim_" ++ toString idx) g0.time
            g0.duration g0.rows ra none).2 with - | b
        · exfalso
          have := (vRowsLoop_none_iff _ _ _ _ ra
            (hnodup g0 (List.mem_cons_self _ _))).mp hopt row hrow
          rw [this] at hsome
          simp at hsome
        · have hform := vRowsLoop_begin idx g0.time g0.duration g0.rows ra
            none (hnodup g0 (List.mem_cons_self _ _))
            (fun row0 _ q hq => hgood (row0, q) (lookup_mem _ _ _ hq))
            (fun b0 hb0 => by simp at hb0) b hopt
          obtain ⟨j, off, hj, hb⟩ := hform
          refine ⟨j, off, by omega, ?_⟩
          rw [← ha]
          simp only [hopt]
          exact hb
    | i + 1 =>
      simp only [vloop, List.getElem?_cons_succ] at ha hg
      have hgood' : RAgood (vRowsLoop ("anim_" ++ toString idx) g0.time
          g0.duration g0.rows ra none).1 (idx + 1) := by
        intro p hp
        rcases vRowsLoop_ra _ _ _ _ _ _ p hp with h | h
        · exact ⟨idx, Nat.lt_succ_self idx, h⟩
        · obtain ⟨j, hj, hid⟩ := hgood p h
          exact ⟨j, Nat.lt_succ_of_lt hj, hid⟩
      have hdom' : ∀ row, (((vRowsLoop ("anim_" ++ toString idx) g0.time
          g0.duration g0.rows ra none).1.lookup row).isSome = true ↔
          (P row ∨ row ∈ g0.rows)) := by
        intro row
        rw [vRowsLoop_keys]
        rw [hdom row]
        tauto
      obtain ⟨h1, h2⟩ := ih _ (idx + 1) (fun row => P row ∨ row ∈ g0.rows)
        (fun g' hg' => hnodup g' (List.mem_cons_of_mem _ hg')) hgood' hdom'
        i a g ha hg
      constructor
      · intro hnone
        apply h1
        intro row hrow
        obtain ⟨hnp, hnr⟩ := hnone row hrow
        refine ⟨?_, ?_⟩
        · rintro (hp | hg0)
          · exact hnp hp
          · exact hnr 0 g0 (by omega) (by simp) hg0
        · intro j gj hj hgj
          exact hnr (j + 1) gj (by omega) (by simpa using hgj)
      · rintro ⟨row, hrow, hcase⟩
        have hcase' : (P row ∨ row ∈ g0.rows) ∨
            ∃ (j : ℕ) (gj : VGroup), j < i ∧ rest[j]? = some gj ∧
              row ∈ gj.rows := by
          rcases hcase with hp | ⟨j, gj, hj, hgj, hrowj⟩
          · exact Or.inl (Or.inl hp)
          · match j with
            | 0 =>
              simp only [List.getElem?_cons_zero, Option.some_inj] at hgj
              subst hgj
              exact Or.inl (Or.inr hrowj)
            | j + 1 =>
              simp only [List.getElem?_cons_succ] at hgj
              exact Or.inr ⟨j, gj, by omega, hgj, hrowj⟩
        obtain ⟨j, off, hj, hb⟩ := h2 ⟨row, hrow, hcase'⟩
        exact ⟨j, off, by omega, hb⟩

theorem renameLast_getElem_beginAttr : ∀ (l : List SvgAnimate) (i : ℕ),
    ((renameLast l)[i]?).map (fun a => a.beginAttr) =
      (l[i]?).map (fun a => a.beginAttr) := by
  intro l
  induction l with
  | nil => intro i; rfl
  | cons a rest ih =>
    intro i
    cases rest with
    | nil =>
      match i with
      | 0 => rfl
      | i + 1 => rfl
    | cons b rest' =>
      have hr : renameLast (a :: b :: rest') =
          a :: renameLast (b :: rest') := rfl
      match i with
      | 0 =>
        rw [hr]
        simp only [List.getElem?_cons_zero]
      | i + 1 =>
        rw [hr]
        simp only [List.getElem?_cons_succ]
        exact ih i

/-- **C8** (amended): an `<animate>` whose group contains no previously
animated row (no row of it appears in any earlier group) has
`begin = "{t}ms;anim_last.end+{t}ms"`, chaining to `anim_last.end` with the
group's time `t` as offset; an `<animate>` whose group reuses a row of an
earlier group instead has `begin = "anim_{j}.end+{off}ms"` for some earlier
index `j < i`, a value that does not reference `anim_last`; and the last
`<animate>` emitted carries `id="anim_last"`. -/
theorem claim_C8 (records : List VRecord)
    (hnodup : ∀ g ∈ chunkRecords records, g.rows.Nodup) :
    (∀ (i : ℕ) (a : SvgAnimate) (g : VGroup),
      (renderAnimates records)[i]? = some a →
      (chunkRecords records)[i]? = some g →
      ((∀ row ∈ g.rows, ∀ (j : ℕ) (gj : VGroup), j < i →
          (chunkRecords records)[j]? = some gj → row ∉ gj.rows) →
        a.beginAttr = toString g.time ++ "ms;anim_last.end+" ++
          toString g.time ++ "ms" ∧ chainsToLast a.beginAttr = true) ∧
      ((∃ row ∈ g.rows, ∃ (j : ℕ) (gj : VGroup), j < i ∧
          (chunkRecords records)[j]? = some gj ∧ row ∈ gj.rows) →
        ∃ j, ∃ off : ℤ, j < i ∧
          a.beginAttr = "anim_" ++ toString j ++ ".end+" ++ toString off ++
            "ms" ∧ chainsToLast a.beginAttr = false)) ∧
    ∀ h : renderAnimates records ≠ [],
      ((renderAnimates records).getLast h).animId = "anim_last" := by
  constructor
  · intro i a g ha hg
    have hmap := renameLast_getElem_beginAttr
      (vloop (chunkRecords records) [] 0) i
    simp only [renderAnimates] at ha
    have hv : ((vloop (chunkRecords records) [] 0)[i]?).map
        (fun x => x.beginAttr) = some a.beginAttr := by
      rw [← hmap, ha]
      rfl
    obtain ⟨a', hva, hbeq⟩ := Option.map_eq_some'.mp hv
    have hmain := vloop_begin_cases (chunkRecords records) [] 0
      (fun _ => False) hnodup (fun p hp => absurd hp (List.not_mem_nil p))
      (fun row => by simp [List.lookup]) i a' g hva hg
    constructor
    · intro hno
      have hcond : ∀ row ∈ g.rows, ¬ False ∧ ∀ (j : ℕ) (gj : VGroup),
          j < i → (chunkRecords records)[j]? = some gj → row ∉ gj.rows :=
        fun row hrow => ⟨not_false, hno row hrow⟩
      have h1 := hmain.1 hcond
      refine ⟨?_, ?_⟩
      · rw [← hbeq]
        exact h1
      · rw [← hbeq, h1]
        exact chainsToLast_default g.time
    · rintro ⟨row, hrow, j, gj, hj, hgj, hrj⟩
      obtain ⟨j', off, hj', hb⟩ := hmain.2
        ⟨row, hrow, Or.inr ⟨j, gj, hj, hgj, hrj⟩⟩
      refine ⟨j', off, by omega, ?_, ?_⟩
      · rw [← hbeq]
        exact hb
      · rw [← hbeq, hb]
        exact chainsToLast_anim_ref j' off
  · intro h
    exact renameLast_last_id _ h

/-- Witness for C8: with row 0 animated at t=0 and again at t=100 (then
row 1 at t=200), the middle group reuses row 0, so its `begin` is
`anim_0.end+0ms` — chaining to the earlier animation `anim_0`, not to
`anim_last`. -/
theorem claim_C8_witness :
    (∀ g ∈ chunkRecords [⟨0, 0, 100⟩, ⟨0, 100, 100⟩, ⟨1, 200, 100⟩],
      g.rows.Nodup) ∧
    (∃ j, ∃ off : ℤ, j < 1 ∧
      SvgAnimate.beginAttr ⟨"anim_0.end+0ms", 100, "anim_1"⟩ =
        "anim_" ++ toString j ++ ".end+" ++ toString off ++ "ms" ∧
      chainsToLast
        (SvgAnimate.beginAttr ⟨"anim_0.end+0ms", 100, "anim_1"⟩) = false) :=
  ⟨by decide,
    ((claim_C8 [⟨0, 0, 100⟩, ⟨0, 100, 100⟩, ⟨1, 200, 100⟩] (by decide)).1 1
      ⟨"anim_0.end+0ms", 100, "anim_1"⟩ ⟨100, 100, [0]⟩ (by decide)
      (by decide)).2
      ⟨0, by decide, 0, ⟨0, 100, [0]⟩, by decide, by decide, by decide⟩⟩
